import Mathlib

/-!
# Verification of the OCI Terraform deployment orchestrator

A shallow embedding, in Lean 4, of the pure core of the two orchestrator
scripts (`scripts/oci-terraform-orchestrator.py`, version 1.0, and
`scripts/oci-terraform-orchestrator-v2.py`, version 2.0), together with
theorems settling the frozen behavioural claims about:

* `topological_sort` — Kahn's-algorithm levelling with the no-source fallback
  and the circular-remainder final level (v2, lines 94-146);
* change detection — `detect_changed_services`, `detect_module_changes`,
  `get_services_using_modules`, `get_all_terraform_services` (v2, lines 153-312);
* per-service execution — `execute_terraform_for_service`,
  `parse_plan_summary`, `parse_apply_summary` (v2, lines 339-576);
* the level-by-level driver of `main` with its dry-run and fail-fast
  behaviour (v2, lines 866-914).

Python strings, lists, dicts and sets are modelled by Lean `String`,
`List`, total functions and deduplicated lists respectively; machine-level
details (actual subprocesses, the filesystem, git) are modelled by explicit
input data, with `Except` capturing a raised exception.  All definitions are
executable, so witnesses evaluate by `decide`/`rfl`.
-/

/-! ## Python string primitives

Lean's built-in `String` comparison and splitting functions are implemented
on byte positions and do not reduce in the kernel, so the Python string
operations used by the scripts are re-implemented structurally on `List Char`.
Python `str` comparison is lexicographic on code points, which coincides with
comparison of the `Char` lists. -/

/-- Lexicographic code-point comparison of character lists: Python `s1 < s2`
on strings. -/
def charListLt : List Char → List Char → Bool
  | _, [] => false
  | [], _ :: _ => true
  | a :: as, b :: bs => if a < b then true else if b < a then false else charListLt as bs

/-- Python `s1 < s2` on strings. -/
def pyStrLt (a b : String) : Bool := charListLt a.toList b.toList

/-- Insert a string into an already-sorted list, keeping it sorted
(nondecreasing in the Python string order). -/
def insertSorted (x : String) : List String → List String
  | [] => [x]
  | y :: ys => if pyStrLt y x then y :: insertSorted x ys else x :: y :: ys

/-- Python `sorted(l)` for a list of strings: the nondecreasing reordering of
`l`.  (Insertion sort; Python's sort is stable, but stability is unobservable
for strings, where comparing equal means being identical.) -/
def pySorted (l : List String) : List String := l.foldr insertSorted []

/-- Python `needle in hay` on lists (substring / infix test). -/
def isInfixOfB (needle : List Char) : List Char → Bool
  | [] => needle.isEmpty
  | c :: cs => needle.isPrefixOf (c :: cs) || isInfixOfB needle cs

/-- Python `needle in hay` on strings. -/
def strContains (needle hay : String) : Bool := isInfixOfB needle.toList hay.toList

/-- Python `s.startswith(pre)`. -/
def pyStartsWith (pre s : String) : Bool := pre.toList.isPrefixOf s.toList

/-- Helper for `pySplitSep`: split a character list at every (non-overlapping,
leftmost-first) occurrence of the separator `s0 :: srest`; the separator is
structurally nonempty, matching Python `str.split(sep)` which rejects an empty
separator.  The recursion is on explicit fuel so that the kernel can evaluate
it; every recursive call shortens the list by at least one, so any
`fuel ≥ l.length` computes the full split (the fuel-exhausted arm with a
nonempty list is unreachable then). -/
def splitSepCore (s0 : Char) (srest : List Char) : Nat → List Char → List (List Char)
  | _, [] => [[]]
  | 0, _ :: _ => [[]]
  | fuel + 1, c :: cs =>
    if (s0 :: srest).isPrefixOf (c :: cs) then
      [] :: splitSepCore s0 srest fuel ((c :: cs).drop (s0 :: srest).length)
    else
      match splitSepCore s0 srest fuel cs with
      | [] => [[c]]
      | h :: t => (c :: h) :: t

/-- Python `s.split(sep)` for a nonempty separator `sep`. -/
def pySplitSep (sep s : String) : List String :=
  match sep.toList with
  | [] => [s]
  | c :: cs => (splitSepCore c cs s.toList.length s.toList).map List.asString

/-- Helper for `pySplitWs`: the maximal runs of non-whitespace characters.
Fuel-based for kernel evaluation, as with `splitSepCore`. -/
def pySplitWsCore : Nat → List Char → List (List Char)
  | _, [] => []
  | 0, _ :: _ => []
  | fuel + 1, c :: cs =>
    if c.isWhitespace then pySplitWsCore fuel cs
    else (c :: cs.takeWhile (fun x => !x.isWhitespace)) ::
      pySplitWsCore fuel (cs.dropWhile (fun x => !x.isWhitespace))

/-- Python `s.split()` (no argument): split on runs of whitespace, with no
empty fields. -/
def pySplitWs (s : String) : List String :=
  (pySplitWsCore s.toList.length s.toList).map List.asString

/-- Python `s.strip()`: remove leading and trailing whitespace. -/
def pyStrip (s : String) : String :=
  (((s.toList.dropWhile Char.isWhitespace).reverse.dropWhile Char.isWhitespace).reverse).asString

/-- Python `int(s)` as a partial function: an optional sign followed by one or
more decimal digits gives a value, anything else raises `ValueError` (`none`).
(Underscore digit grouping and surrounding whitespace, which Python also
accepts, are never exercised by the orchestrator's whitespace-split tokens.) -/
def pyToInt : String → Option Int := fun s =>
  let core : List Char → Option Int := fun digits =>
    if digits ≠ [] ∧ digits.all Char.isDigit then
      some (digits.foldl (fun acc c => acc * 10 + ((c.toNat - '0'.toNat : Nat) : Int)) 0)
    else none
  match s.toList with
  | '-' :: rest => (core rest).map (fun n => -n)
  | '+' :: rest => core rest
  | cs => core cs

/-- Python `str(i)` for an integer (helper producing the digits of a natural
number most-significant first; `fuel` bounds the recursion and any
`fuel ≥ n` is exact). -/
def natDigits : Nat → Nat → List Char
  | 0, _ => []
  | _ + 1, 0 => []
  | fuel + 1, n => natDigits fuel (n / 10) ++ [Char.ofNat (48 + n % 10)]

/-- Python `str(i)` for an integer. -/
def pyStrOfInt (i : Int) : String :=
  match i with
  | Int.ofNat 0 => "0"
  | Int.ofNat n => (natDigits n n).asString
  | Int.negSucc m => ("-".toList ++ natDigits (m + 1) (m + 1)).asString

/-- Python `l[-n:]` on a list: the last `n` elements, except that `l[-0:]`
is all of `l` (since `-0 == 0`). -/
def pyLastSlice (l : List α) (n : Nat) : List α :=
  if n = 0 then l else l.drop (l.length - n)

/-! ## Service dependency table and `topological_sort` (v2, lines 48-146)

The module-level dict `SERVICE_DEPENDENCIES` is modelled as a total function
(`dict.get(service, [])` defaults to `[]`).  `topological_sort` reads that
global table; it is embedded as `topological_sortWith table services` with the
table abstracted, and `topological_sort` is its instantiation at
`SERVICE_DEPENDENCIES`, so that theorems quantify over any dependency
table. -/

/-- The `SERVICE_DEPENDENCIES` dict of v2 (lines 48-81), as the total lookup
`SERVICE_DEPENDENCIES.get(service, [])`. -/
def SERVICE_DEPENDENCIES : String → List String
  | "identity" => []
  | "kms" => []
  | "network" => ["identity"]
  | "dns" => ["identity"]
  | "compute" => ["network", "identity"]
  | "oke" => ["network", "identity"]
  | "database" => ["network", "identity"]
  | "managementservices" => ["network", "identity"]
  | "loadbalancer" => ["network", "identity"]
  | "firewall" => ["network", "identity"]
  | "nsg" => ["network", "identity"]
  | "fss" => ["network", "identity"]
  | "oss" => ["identity"]
  | "security" => ["identity"]
  | "tagging" => ["identity"]
  | "quota" => ["identity"]
  | "budget" => ["identity"]
  | "vlan" => ["network", "identity"]
  | "ocvs" => ["network", "identity"]
  | _ => []

/-- The `graph` dict after the edge-building loop of `topological_sort`
(v2, lines 101-115): `graph[p]` receives one append of `service` for every
occurrence of `p` among `SERVICE_DEPENDENCIES.get(service, [])` with
`p ∈ services`, services being visited in list order.  Keys outside
`services` are never appended to and read as `[]`. -/
def buildGraph (table : String → List String) (services : List String) (p : String) :
    List String :=
  services.flatMap (fun s =>
    (((table s).filter (fun d => services.contains d)).filter (fun d => d == p)).map
      (fun _ => s))

/-- The `in_degree` dict after the edge-building loop of `topological_sort`
(v2, lines 101-115): each occurrence of `s` in `services` adds one increment
per dependency of `s` that is itself in `services`. -/
def initInDegree (table : String → List String) (services : List String) (s : String) : Int :=
  ((services.count s * ((table s).filter (fun d => services.contains d)).length : Nat) : Int)

/-- One pass of the inner double loop of Kahn's algorithm (v2, lines 130-134):
for one `dependent` occurrence, decrement its in-degree and append it to
`next_level` exactly when the decremented value is zero. -/
def kahnVisit (st : (String → Int) × List String) (d : String) : (String → Int) × List String :=
  (Function.update st.1 d (st.1 d - 1), if st.1 d - 1 = 0 then st.2 ++ [d] else st.2)

/-- Processing one `service` of `current_level` (v2, lines 130-134): visit
every occurrence in `graph[service]`. -/
def kahnProcess (graph : String → List String) (st : (String → Int) × List String)
    (p : String) : (String → Int) × List String :=
  (graph p).foldl kahnVisit st

/-- The `while current_level:` loop of `topological_sort` (v2, lines 126-136),
returning the accumulated `levels` together with the final `in_degree` (which
lines 138-144 read afterwards).  The recursion is on explicit fuel; the
caller passes `services.length + 1`, which the correctness lemmas show is
never exhausted (each iteration after the first consumes at least one fresh
service). -/
def kahnLoop (graph : String → List String) :
    Nat → (String → Int) → List String → List (List String) × (String → Int)
  | 0, deg, _ => ([], deg)
  | fuel + 1, deg, cur =>
    if cur.isEmpty then ([], deg)
    else
      let st := cur.foldl (kahnProcess graph) (deg, ([] : List String))
      let rest := kahnLoop graph fuel st.1 st.2
      (pySorted cur :: rest.1, rest.2)

/-- The function `topological_sort` (v2, lines 94-146) with the dependency table as an
explicit argument: Kahn's-algorithm levelling, the `if not current_level`
fallback to one singleton level per service in input order (lines 121-124),
and the circular-remainder final level of the services with positive
residual in-degree, sorted (lines 138-144). -/
def topological_sortWith (table : String → List String) (services : List String) :
    List (List String) :=
  let in_degree := initInDegree table services
  let current_level := services.filter (fun s => in_degree s == 0)
  if current_level.isEmpty then services.map (fun s => [s])
  else
    let out := kahnLoop (buildGraph table services) (services.length + 1)
      in_degree current_level
    let processed := (out.1.map List.length).sum
    if processed ≠ services.length then
      out.1 ++ [pySorted (services.filter (fun s => 0 < out.2 s))]
    else out.1

/-- The function `topological_sort` as the source calls it, on the global table. -/
def topological_sort (services : List String) : List (List String) :=
  topological_sortWith SERVICE_DEPENDENCIES services

/-- The guard of the warning print at v2 lines 121-123 (`⚠️  Warning: No
services with zero dependencies. Using provided order.`): true exactly when
the warning is emitted. -/
def topological_sort_warns_no_source (table : String → List String)
    (services : List String) : Bool :=
  (services.filter (fun s => initInDegree table services s == 0)).isEmpty

/-! ## Per-service execution (v2, lines 339-576)

`execute_terraform_for_service` runs two subprocesses (`terraform init`,
then `terraform plan`/`apply`).  Each subprocess invocation is modelled by a
`ProcOutcome`: it either completed with an exit code and captured streams,
raised `subprocess.TimeoutExpired`, or raised some other exception (caught
by the final `except Exception` arm).  The elapsed wall-clock time
(`time.time() - start_time`) is an input of the model. -/

/-- Outcome of one `subprocess.run` call. -/
inductive ProcOutcome where
  | completed (returncode : Int) (stdout stderr : String)
  | timedOut
  | excepted (msg : String)
deriving DecidableEq, Repr

/-- The per-service result dict (v2, lines 351-361).  The `retry_count` key,
set once and never incremented (no retry loop exists), is not modelled; the
`duration` field carries the elapsed time measured at v2 line 466. -/
structure TFResult where
  service : String
  success : Bool
  duration : Nat
  output : String
  error : Option String
  resources_created : Int
  resources_changed : Int
  resources_destroyed : Int
deriving DecidableEq, Repr

/-- The `{'add': _, 'change': _, 'destroy': _}` summary dict. -/
structure PlanSummary where
  add : Int
  change : Int
  destroy : Int
deriving DecidableEq, Repr

/-- The function `parse_plan_summary` (v2, lines 526-550): for every line containing
`"Plan:"`, scan the whitespace-split tokens; at a token `"add,"` (resp.
`"change,"`, `"destroy."`) with positive index, try `int(parts[i-1])` and on
`ValueError` keep the previous value (`except: pass`). -/
def parse_plan_summary (output : String) : PlanSummary :=
  (pySplitSep "\n" output).foldl (fun summary line =>
    if strContains "Plan:" line then
      let parts := pySplitWs line
      (List.range parts.length).foldl (fun s i =>
        let part := parts.getD i ""
        if part == "add," && decide (i > 0) then
          match pyToInt (parts.getD (i - 1) "") with
          | some n => { s with add := n }
          | none => s
        else if part == "change," && decide (i > 0) then
          match pyToInt (parts.getD (i - 1) "") with
          | some n => { s with change := n }
          | none => s
        else if part == "destroy." && decide (i > 0) then
          match pyToInt (parts.getD (i - 1) "") with
          | some n => { s with destroy := n }
          | none => s
        else s) summary
    else summary) ⟨0, 0, 0⟩

/-- The function `parse_apply_summary` (v2, lines 553-576): on a line containing
`"Apply complete!"` or `"Destroy complete!"`, for each of the markers
`added`/`changed`/`destroyed` present in the line, take the last
whitespace-split token before the marker and try `int(...)`; `IndexError`
or `ValueError` keeps the previous value. -/
def parse_apply_summary (output : String) : PlanSummary :=
  let grab : String → String → Option Int := fun marker line =>
    if strContains marker line then
      match ((pySplitWs ((pySplitSep marker line).getD 0 "")).getLast?) with
      | some tok => pyToInt tok
      | none => none
    else none
  (pySplitSep "\n" output).foldl (fun summary line =>
    if strContains "Apply complete!" line || strContains "Destroy complete!" line then
      let s1 := match grab "added" line with
        | some n => { summary with add := n }
        | none => summary
      let s2 := match grab "changed" line with
        | some n => { s1 with change := n }
        | none => s1
      match grab "destroyed" line with
      | some n => { s2 with destroy := n }
      | none => s2
    else summary) ⟨0, 0, 0⟩

/-- The function `execute_terraform_for_service` (v2, lines 339-467) as a function of the
two subprocess outcomes and the elapsed time: init failure short-circuits;
the plan branch records the parsed deltas unconditionally and succeeds on
exit codes 0 and 2; the apply branch succeeds only on 0; a
`TimeoutExpired` from either step lands in the single `except` arm whose
message names the requested action, not the step. -/
def execute_terraform_for_service (service_name : String) (action : String)
    (initOut tfOut : ProcOutcome) (elapsed : Nat) : TFResult :=
  let base : TFResult :=
    { service := service_name, success := false, duration := elapsed, output := "",
      error := none, resources_created := 0, resources_changed := 0,
      resources_destroyed := 0 }
  let timeoutMsg := "Terraform " ++ action ++ " timed out after 30 minutes"
  match initOut with
  | ProcOutcome.timedOut => { base with error := some timeoutMsg }
  | ProcOutcome.excepted m => { base with error := some m }
  | ProcOutcome.completed irc istdout istderr =>
    if irc ≠ 0 then
      { base with
        error := some ("Init failed: " ++ istderr)
        output := istdout ++ istderr }
    else
      match tfOut with
      | ProcOutcome.timedOut => { base with error := some timeoutMsg }
      | ProcOutcome.excepted m => { base with error := some m }
      | ProcOutcome.completed rc stdout stderr =>
        if action == "plan" then
          let ps := parse_plan_summary stdout
          let r := { base with
            output := stdout
            resources_created := ps.add
            resources_changed := ps.change
            resources_destroyed := ps.destroy }
          if rc == 0 || rc == 2 then { r with success := true }
          else { r with
            error := some ("Plan failed (exit code " ++ pyStrOfInt rc ++ "): " ++ stderr)
            output := r.output ++ "\n\nSTDERR:\n" ++ stderr }
        else
          let ps := parse_apply_summary stdout
          let r := { base with
            output := stdout
            resources_created := ps.add
            resources_changed := ps.change
            resources_destroyed := ps.destroy }
          if rc == 0 then { r with success := true }
          else { r with
            error := some ("Apply failed (exit code " ++ pyStrOfInt rc ++ "): " ++ stderr)
            output := r.output ++ "\n\nSTDERR:\n" ++ stderr }

/-! ## The level-by-level driver of `main` (v2, lines 866-914) -/

/-- The synthesized dry-run result dict (v2, lines 877-886). -/
def dry_run_result (action service_name : String) : TFResult :=
  { service := service_name, success := true, duration := 0,
    output := "[DRY-RUN] Simulated " ++ action ++ " for " ++ service_name,
    error := none, resources_created := 0, resources_changed := 0,
    resources_destroyed := 0 }

/-- The `for level_num, level_services in enumerate(execution_levels)` loop of
`main` (v2, lines 868-914), carrying the `all_results` accumulator.  The
per-level dispatch (sequential map, or the parallel worker pool) is abstracted
as `exec`; in dry-run mode results are synthesized without invoking it.  The
fail-fast check inspects `all_results[-len(level_services):]` (v2 line 910)
and `break`s when the level had a failure and dry-run is off (v2 line 911). -/
def run_levels_from (action : String) (dry_run : Bool)
    (exec : List String → List TFResult) (acc : List TFResult) :
    List (List String) → List TFResult
  | [] => acc
  | level :: rest =>
    let level_results := if dry_run then level.map (dry_run_result action) else exec level
    let all_results := acc ++ level_results
    let level_success := (pyLastSlice all_results level.length).all (fun r => r.success)
    if !level_success && !dry_run then all_results
    else run_levels_from action dry_run exec all_results rest

/-- The level loop of `main`, started with an empty `all_results`. -/
def run_levels (action : String) (dry_run : Bool)
    (exec : List String → List TFResult) (levels : List (List String)) : List TFResult :=
  run_levels_from action dry_run exec [] levels

/-! ## Change detection (v2, lines 153-312)

The working directory is modelled as the data the scripts inspect: the
directory entries returned by `iterdir()`, each with its name, kind and the
`*.tf` files it contains (with their contents and whether `read_text()`
succeeds).  The two external change sources — the changed-files file named by
`--changed-files` and a `git diff` — are modelled as `Except`-valued inputs,
`.error` standing for a raised exception. -/

/-- A `*.tf` file of a service directory: `read_text()` either returns
`content` or raises (`readable = false`). -/
structure TFFile where
  name : String
  readable : Bool
  content : String
deriving DecidableEq, Repr

/-- One entry of `working_path.iterdir()`. -/
structure DirEntry where
  name : String
  isDir : Bool
  tfFiles : List TFFile
deriving DecidableEq, Repr

/-- The working directory: whether `working_path.exists()`, and its entries
in `iterdir()` order. -/
structure WorkingDir where
  exists' : Bool
  entries : List DirEntry
deriving DecidableEq, Repr

/-- The function `get_all_terraform_services` (v2, lines 297-312): the sorted names of the
non-hidden subdirectories holding at least one `*.tf` file; `[]` when the
working directory is missing. -/
def get_all_terraform_services (wd : WorkingDir) : List String :=
  if !wd.exists' then []
  else pySorted ((wd.entries.filter (fun e =>
    e.isDir && !pyStartsWith "." e.name && !e.tfFiles.isEmpty)).map (fun e => e.name))

/-- The function `detect_module_changes` (v2, lines 153-191) on the changed-files path (in
every reachable call the caller passes the changed-file list; the `base_ref`
re-diff arm produces the same list, and with neither input the function
returns the empty set): collect `parts[1]` of every path starting with
`modules/`, deduplicated in first-occurrence order (a Python `set`, observed
only through membership and emptiness). -/
def module_change_step (modules : List String) (file_path : String) : List String :=
  if pyStartsWith "modules/" file_path then
    let parts := pySplitSep "/" file_path
    if decide (parts.length ≥ 2) then
      let module_name := parts.getD 1 ""
      if modules.contains module_name then modules else modules ++ [module_name]
    else modules
  else modules

def detect_module_changes (changed_files : List String) : List String :=
  changed_files.foldl module_change_step []

/-- The per-file module-reference test of `get_services_using_modules`
(v2 line 215): `f'modules/{module}' in content or
f'source = "../../modules/{module}"' in content`. -/
def module_ref_match (module content : String) : Bool :=
  strContains ("modules/" ++ module) content ||
  strContains ("source = \"../../modules/" ++ module ++ "\"") content

/-- The function `get_services_using_modules` (v2, lines 194-222): the set of non-hidden
service directories one of whose readable `*.tf` files textually references
one of the changed modules (unreadable files are skipped, v2 lines 219-220).
The Python sets are modelled as deduplicated lists; the inner `break` only
stops re-adding an already-added member. -/
def service_scan_step (modules : List String) (services : List String)
    (e : DirEntry) : List String :=
  if !e.isDir || pyStartsWith "." e.name then services
  else if e.tfFiles.any (fun f => f.readable &&
      modules.any (fun m => module_ref_match m f.content)) then
    if services.contains e.name then services else services ++ [e.name]
  else services

def get_services_using_modules (wd : WorkingDir) (modules : List String) : List String :=
  if !wd.exists' then []
  else wd.entries.foldl (service_scan_step modules) []

/-- The inputs of `detect_changed_services` (v2, lines 229-294): the base
name of the working directory, the directory itself, the optional
changed-files file (`none` when the path does not exist, `.error` when
reading raises, `.ok` the raw lines), the optional `--base-ref`, and the
`git diff` outcome. -/
structure ChangeDetectInput where
  working_dir_name : String
  wd : WorkingDir
  changed_files_file : Option (Except String (List String))
  base_ref : Option String
  git_diff : Except String (List String)
deriving Repr

/-- Lines of the changed-files file, stripped and with blank lines dropped
(v2, lines 244-248); `[]` when the file does not exist. -/
def read_changed_files (inp : ChangeDetectInput) : Except String (List String) :=
  match inp.changed_files_file with
  | none => Except.ok []
  | some (Except.error e) => Except.error e
  | some (Except.ok lines) => Except.ok ((lines.map pyStrip).filter (fun l => l ≠ ""))

/-- The changed-file list `detect_changed_services` works from (v2, lines
243-262): the external file when it yields any lines, otherwise a `git diff`
against `base_ref`, raising `ValueError` when neither source is available. -/
def effective_changed_files (inp : ChangeDetectInput) : Except String (List String) := do
  let from_file ← read_changed_files inp
  if from_file.isEmpty then
    match inp.base_ref with
    | none => Except.error "Either changed_files_path or base_ref must be provided"
    | some _ => inp.git_diff
  else pure from_file

/-- The body of the `try` block of `detect_changed_services` (v2, lines
239-289): direct detection of services whose directory appears as
`working_dir_name/service/...` in a changed path and holds `*.tf` files,
then module fan-out, then sorting. -/
def detect_changed_services_body (inp : ChangeDetectInput) :
    Except String (List String) := do
  let changed_files ← effective_changed_files inp
  let direct := changed_files.foldl (fun services file_path =>
    let parts := pySplitSep "/" file_path
    if decide (parts.length ≥ 2) && parts.getD 0 "" == inp.working_dir_name then
      let service_name := parts.getD 1 ""
      match inp.wd.entries.find? (fun e => e.name == service_name) with
      | some e =>
        if e.isDir && !e.tfFiles.isEmpty then
          if services.contains service_name then services else services ++ [service_name]
        else services
      | none => services
    else services) []
  let changed_modules := detect_module_changes changed_files
  let services :=
    if changed_modules.isEmpty then direct
    else direct ++ ((get_services_using_modules inp.wd changed_modules).filter
      (fun s => !direct.contains s))
  pure (pySorted services)

/-- The function `detect_changed_services` (v2, lines 229-294): the `try` body, with the
`except Exception` arm falling back to every service directory holding
`*.tf` files. -/
def detect_changed_services (inp : ChangeDetectInput) : List String :=
  match detect_changed_services_body inp with
  | Except.ok services => services
  | Except.error _ => get_all_terraform_services inp.wd

/-! ## Concrete instances used by counterexamples and witnesses -/

/-- A two-cycle dependency table (`a ↔ b`), used to exercise the cycle
fallbacks of `topological_sort`. -/
def cycTable : String → List String
  | "a" => ["b"]
  | "b" => ["a"]
  | _ => []

/-- A per-level dispatch whose every result is a failure (witness input for
the fail-fast claim). -/
def const_fail_exec (level : List String) : List TFResult :=
  level.map (fun s =>
    { service := s
      success := false
      duration := 1
      output := ""
      error := some "Plan failed (exit code 1): boom"
      resources_created := 0
      resources_changed := 0
      resources_destroyed := 0 })

/-- A small working directory: two service directories referencing the
shared module `net-common`, one directory without infra files, one hidden
directory. -/
def sampleWD : WorkingDir :=
  { exists' := true
    entries :=
    [ { name := "network"
        isDir := true
        tfFiles := [{ name := "main.tf"
                      readable := true
                      content := "module net source = \"../../modules/net-common\"" }] }
    , { name := "compute"
        isDir := true
        tfFiles := [{ name := "main.tf"
                      readable := true
                      content := "uses modules/net-common too" }] }
    , { name := "docs", isDir := true, tfFiles := [] }
    , { name := ".hidden"
        isDir := true
        tfFiles := [{ name := "a.tf", readable := true, content := "" }] } ] }

/-- The `compute` entry of `sampleWD` (named for use in witness
statements). -/
def sampleComputeEntry : DirEntry :=
  { name := "compute"
    isDir := true
    tfFiles := [{ name := "main.tf", readable := true, content := "uses modules/net-common too" }] }

/-- Change-detection input whose changed-files file raises on read (witness
input for the fallback claim). -/
def sampleInpReadError : ChangeDetectInput :=
  { working_dir_name := "toronto"
    wd := sampleWD
    changed_files_file := some (Except.error "IOError")
    base_ref := none
    git_diff := Except.error "no git repository" }

/-- Change-detection input whose changed-files file lists one shared-module
path and no service file (witness input for the fan-out claim). -/
def sampleInpModuleChange : ChangeDetectInput :=
  { working_dir_name := "toronto"
    wd := sampleWD
    changed_files_file := some (Except.ok ["modules/net-common/main.tf"])
    base_ref := none
    git_diff := Except.error "no git repository" }

/-! ## Basic facts about the sorting and counting helpers -/

theorem insertSorted_perm (x : String) (l : List String) :
    (insertSorted x l).Perm (x :: l) := by
  induction l with
  | nil => simp [insertSorted]
  | cons y ys ih =>
    simp only [insertSorted]
    split
    · exact ((ih.cons y).trans (List.Perm.swap x y ys))
    · exact List.Perm.refl _

theorem pySorted_perm (l : List String) : (pySorted l).Perm l := by
  induction l with
  | nil => simp [pySorted]
  | cons x xs ih =>
    simpa [pySorted] using (insertSorted_perm x (pySorted xs)).trans (ih.cons x)

theorem mem_pySorted {x : String} {l : List String} : x ∈ pySorted l ↔ x ∈ l :=
  (pySorted_perm l).mem_iff

/-- A duplicate-free list included in `S` is no longer than `S`. -/
theorem nodup_subset_length_le {l S : List String} (hl : l.Nodup)
    (hsub : ∀ x ∈ l, x ∈ S) : l.length ≤ S.length := by
  calc l.length = l.toFinset.card := (List.toFinset_card_of_nodup hl).symm
    _ ≤ S.toFinset.card := by
        apply Finset.card_le_card
        intro x hx
        exact List.mem_toFinset.mpr (hsub x (List.mem_toFinset.mp hx))
    _ ≤ S.length := List.toFinset_card_le S

/-- Splitting a filter along a second predicate. -/
theorem length_filter_split (l : List String) (p q : String → Bool) :
    (l.filter p).length =
      (l.filter (fun a => p a && q a)).length + (l.filter (fun a => p a && !q a)).length := by
  induction l with
  | nil => simp
  | cons a l ih =>
    by_cases hp : p a <;> by_cases hq : q a <;>
      simp [List.filter_cons, hp, hq, ih] <;> omega

/-- Summing the multiplicities of the members of a duplicate-free list `ps`
inside `l` counts the elements of `l` lying in `ps`. -/
theorem sum_count_of_nodup (l : List String) (ps : List String) (hps : ps.Nodup) :
    (ps.map (fun p => l.count p)).sum = (l.filter (fun a => ps.contains a)).length := by
  induction ps with
  | nil => simp
  | cons p ps ih =>
    rcases List.nodup_cons.mp hps with ⟨hp, hps'⟩
    have hsplit := length_filter_split l (fun a => (p :: ps).contains a) (fun a => a == p)
    have h1 : l.filter (fun a => (p :: ps).contains a && (a == p)) = l.filter (fun a => a == p) := by
      apply List.filter_congr
      intro a _
      by_cases h : a = p <;> simp [h]
    have h2 : l.filter (fun a => (p :: ps).contains a && !(a == p)) =
        l.filter (fun a => ps.contains a) := by
      apply List.filter_congr
      intro a _
      by_cases h : a = p
      · subst h
        simp [List.elem_iff, hp]
      · by_cases h' : a ∈ ps <;> simp [List.elem_iff, h, h']
    have hcount : l.count p = (l.filter (fun a => a == p)).length := by
      simp [List.count, List.countP_eq_length_filter]
    simp only [List.map_cons, List.sum_cons, ih hps']
    rw [hsplit, h1, h2, hcount]

/-- The multiplicity of `x` in a constant-`map` image. -/
theorem count_map_const (l : List α) (s x : String) :
    ((l.map (fun _ => s)).count x) = if s == x then l.length else 0 := by
  induction l with
  | nil => simp
  | cons a l ih =>
    simp only [List.map_cons, List.count_cons, ih]
    by_cases h : s = x <;> simp [h]

/-- Summing an `if · = x` series over `S` picks the value at `x`, with
multiplicity. -/
theorem sum_map_ite_eq (S : List String) (x : String) (f : String → Nat) :
    (S.map (fun s => if s == x then f s else 0)).sum = S.count x * f x := by
  induction S with
  | nil => simp
  | cons s S ih =>
    simp only [List.map_cons, List.sum_cons, List.count_cons, ih]
    by_cases h : s = x
    · subst h
      simp only [beq_self_eq_true, if_true]
      ring
    · simp [h]

/-! ## Characterising one iteration of the Kahn loop -/

/-- The in-set prerequisite list of `s`: the dependencies of `s` that are also
candidates (exactly the guard `if dep in services` of v2 line 113), with
multiplicity. -/
def inSetDeps (table : String → List String) (services : List String) (s : String) :
    List String :=
  (table s).filter (fun d => services.contains d)

/-- Net effect on `in_degree` of visiting a list of dependent-occurrences:
each occurrence of `x` decrements `in_degree[x]` once. -/
theorem kahnVisit_foldl_deg (l : List String) (deg : String → Int) (acc : List String)
    (x : String) :
    (l.foldl kahnVisit (deg, acc)).1 x = deg x - l.count x := by
  induction l generalizing deg acc with
  | nil => simp
  | cons d l ih =>
    simp only [List.foldl_cons, kahnVisit, ih, List.count_cons]
    by_cases h : d = x
    · subst h
      rw [Function.update_same]
      simp
      omega
    · rw [Function.update_noteq (Ne.symm h)]
      simp [h]

/-- Multiplicity of `x` in `next_level` after visiting a list of
dependent-occurrences: `x` is appended exactly once if its in-degree
trajectory passes through zero, i.e. if `1 ≤ deg x ≤ (number of visits of
x)`, and never otherwise. -/
theorem kahnVisit_foldl_next (l : List String) (deg : String → Int) (acc : List String)
    (x : String) :
    (l.foldl kahnVisit (deg, acc)).2.count x =
      acc.count x + (if 1 ≤ deg x ∧ deg x ≤ (l.count x : Int) then 1 else 0) := by
  induction l generalizing deg acc with
  | nil =>
    simp only [List.foldl_nil, List.count_nil, Nat.cast_zero]
    split
    · omega
    · omega
  | cons d l ih =>
    simp only [List.foldl_cons, kahnVisit, ih, List.count_cons]
    by_cases h : d = x
    · subst h
      rw [Function.update_same]
      by_cases h0 : deg d - 1 = 0
      · rw [if_pos h0]
        simp only [List.count_append, List.count_singleton, beq_self_eq_true, if_true]
        push_cast
        split_ifs <;> omega
      · rw [if_neg h0]
        simp only [beq_self_eq_true, if_true]
        push_cast
        split_ifs <;> omega
    · rw [Function.update_noteq (Ne.symm h)]
      by_cases h0 : deg d - 1 = 0
      · rw [if_pos h0]
        simp only [List.count_append, List.count_singleton]
        have hdx : (d == x) = false := by simp [h]
        rw [hdx]
        simp
      · rw [if_neg h0]
        have hdx : (d == x) = false := by simp [h]
        rw [hdx]
        simp

/-- Folding `kahnProcess` over `current_level` is folding `kahnVisit` over
the concatenation of the visited adjacency lists. -/
theorem kahnProcess_foldl_eq (graph : String → List String) (cur : List String)
    (st : (String → Int) × List String) :
    cur.foldl (kahnProcess graph) st = (cur.flatMap graph).foldl kahnVisit st := by
  induction cur generalizing st with
  | nil => simp
  | cons p cur ih =>
    simp only [List.foldl_cons, List.flatMap_cons, List.foldl_append, kahnProcess, ih]

/-- Members of an adjacency list are candidates. -/
theorem mem_buildGraph {table : String → List String} {S : List String} {p x : String}
    (h : x ∈ buildGraph table S p) : x ∈ S := by
  rcases List.mem_flatMap.mp h with ⟨s, hs, hx⟩
  rcases List.mem_map.mp hx with ⟨d, _, rfl⟩
  exact hs

/-- Multiplicity of `x` in the adjacency list of `p`, for a duplicate-free
candidate list: the multiplicity of `p` among the in-set prerequisites of
`x`. -/
theorem count_buildGraph (table : String → List String) (S : List String) (hS : S.Nodup)
    (p x : String) (hx : x ∈ S) :
    (buildGraph table S p).count x = (inSetDeps table S x).count p := by
  rw [buildGraph, List.count_flatMap]
  have hmap : (S.map (List.count x ∘ fun s =>
      (((table s).filter (fun d => S.contains d)).filter (fun d => d == p)).map (fun _ => s))) =
      S.map (fun s => if s == x then
        (((table s).filter (fun d => S.contains d)).filter (fun d => d == p)).length else 0) := by
    apply List.map_congr_left
    intro s _
    simp only [Function.comp_apply]
    exact count_map_const _ s x
  rw [hmap, sum_map_ite_eq, List.count_eq_one_of_mem hS hx, Nat.one_mul]
  simp only [inSetDeps, List.count, List.countP_eq_length_filter, List.filter_filter]

theorem contains_true_iff {l : List String} {a : String} : l.contains a = true ↔ a ∈ l :=
  List.elem_iff

theorem contains_false_iff {l : List String} {a : String} : l.contains a = false ↔ a ∉ l := by
  rw [← Bool.not_eq_true, not_iff_not]
  exact contains_true_iff

/-- All the facts needed about one pass of the `while` body (v2 lines
126-136), starting from a state in which `done` lists the services already
processed in earlier iterations and `cur` is the current level:
`next_level` is duplicate-free, consists of fresh candidates, the updated
`in_degree` counts the in-set prerequisites not yet processed, every member
of `next_level` has all prerequisites processed, and every unprocessed
candidate outside `next_level` still has an unprocessed prerequisite. -/
theorem kahn_iteration (table : String → List String) (S : List String) (hS : S.Nodup)
    (done cur : List String) (deg : String → Int)
    (hcN : cur.Nodup)
    (hdisj : ∀ x ∈ cur, x ∉ done)
    (hdeg : ∀ s ∈ S, deg s =
      ((inSetDeps table S s).filter (fun p => !done.contains p)).length)
    (hcur0 : ∀ s ∈ cur, ∀ p ∈ inSetDeps table S s, p ∈ done)
    (hdone0 : ∀ s ∈ done, ∀ p ∈ inSetDeps table S s, p ∈ done)
    (hnz : ∀ s ∈ S, s ∉ done → s ∉ cur → ∃ p ∈ inSetDeps table S s, p ∉ done) :
    (cur.foldl (kahnProcess (buildGraph table S)) (deg, ([] : List String))).2.Nodup ∧
    (∀ x ∈ (cur.foldl (kahnProcess (buildGraph table S)) (deg, ([] : List String))).2,
      x ∈ S ∧ x ∉ done ∧ x ∉ cur) ∧
    (∀ s ∈ S, (cur.foldl (kahnProcess (buildGraph table S)) (deg, ([] : List String))).1 s =
      ((inSetDeps table S s).filter
        (fun p => !(done.contains p || cur.contains p))).length) ∧
    (∀ s ∈ (cur.foldl (kahnProcess (buildGraph table S)) (deg, ([] : List String))).2,
      ∀ p ∈ inSetDeps table S s, p ∈ done ∨ p ∈ cur) ∧
    (∀ s ∈ S, s ∉ done → s ∉ cur →
      s ∉ (cur.foldl (kahnProcess (buildGraph table S)) (deg, ([] : List String))).2 →
      ∃ p ∈ inSetDeps table S s, p ∉ done ∧ p ∉ cur) := by
  set st := cur.foldl (kahnProcess (buildGraph table S)) (deg, ([] : List String)) with hst
  set events := cur.flatMap (buildGraph table S) with hev
  have hfold : st = events.foldl kahnVisit (deg, []) := by
    rw [hst, hev, kahnProcess_foldl_eq]
  -- multiplicity of x in the visited occurrences
  have hec : ∀ x ∈ S, events.count x =
      ((inSetDeps table S x).filter (fun a => cur.contains a)).length := by
    intro x hx
    rw [hev, List.count_flatMap]
    have hmap : cur.map (List.count x ∘ buildGraph table S) =
        cur.map (fun p => (inSetDeps table S x).count p) :=
      List.map_congr_left (fun p _ => count_buildGraph table S hS p x hx)
    rw [hmap, sum_count_of_nodup _ _ hcN]
  have hecn : ∀ x, x ∉ S → events.count x = 0 := by
    intro x hx
    refine List.count_eq_zero.mpr (fun hmem => hx ?_)
    rcases List.mem_flatMap.mp hmem with ⟨p, _, hg⟩
    exact mem_buildGraph hg
  have hdeg1 : ∀ x, st.1 x = deg x - events.count x := by
    intro x
    rw [hfold]
    exact kahnVisit_foldl_deg events deg [] x
  have hcnt : ∀ x, st.2.count x =
      if 1 ≤ deg x ∧ deg x ≤ (events.count x : Int) then 1 else 0 := by
    intro x
    rw [hfold]
    simpa using kahnVisit_foldl_next events deg [] x
  -- splitting the unprocessed-prerequisite count along `cur`
  have hsplit : ∀ s ∈ S,
      ((inSetDeps table S s).filter (fun p => !done.contains p)).length =
      ((inSetDeps table S s).filter (fun p => !(done.contains p || cur.contains p))).length +
      ((inSetDeps table S s).filter (fun p => cur.contains p)).length := by
    intro s _
    have h := length_filter_split (inSetDeps table S s)
      (fun p => !done.contains p) (fun p => !cur.contains p)
    have e1 : (inSetDeps table S s).filter (fun p => !done.contains p && !cur.contains p) =
        (inSetDeps table S s).filter (fun p => !(done.contains p || cur.contains p)) := by
      apply List.filter_congr
      intro p _
      cases hd : done.contains p <;> cases hc : cur.contains p <;> simp
    have e2 : (inSetDeps table S s).filter (fun p => !done.contains p && !(!cur.contains p)) =
        (inSetDeps table S s).filter (fun p => cur.contains p) := by
      apply List.filter_congr
      intro p _
      cases hc : cur.contains p
      · simp
      · have hd : p ∉ done := hdisj p (contains_true_iff.mp hc)
        simp [hc]
        exact hd
    calc ((inSetDeps table S s).filter (fun p => !done.contains p)).length
        = ((inSetDeps table S s).filter (fun p => !done.contains p && !cur.contains p)).length +
          ((inSetDeps table S s).filter (fun p => !done.contains p && !(!cur.contains p))).length := h
      _ = _ := by rw [e1, e2]
  -- the new in-degree counts prerequisites outside `done ++ cur`
  have hdeg2 : ∀ s ∈ S, st.1 s = ((inSetDeps table S s).filter
      (fun p => !(done.contains p || cur.contains p))).length := by
    intro s hs
    rw [hdeg1 s, hdeg s hs, hec s hs, hsplit s hs]
    push_cast
    ring
  -- membership in next_level
  have hmem : ∀ x, x ∈ st.2 ↔ (1 ≤ deg x ∧ deg x ≤ (events.count x : Int)) := by
    intro x
    rw [← List.count_pos_iff, hcnt x]
    split <;> rename_i h <;> simp [h]
  have hmemS : ∀ x ∈ st.2, x ∈ S := by
    intro x hx
    by_contra hxS
    rcases (hmem x).mp hx with ⟨h1, h2⟩
    rw [hecn x hxS] at h2
    omega
  -- a processed or current service has fully-processed prerequisites, so
  -- nonzero in-degree places x outside done and cur
  have hpos_fresh : ∀ x ∈ S, deg x ≠ 0 → x ∉ done ∧ x ∉ cur := by
    intro x hxS hdx
    constructor
    · intro hxd
      apply hdx
      rw [hdeg x hxS]
      have : (inSetDeps table S x).filter (fun p => !done.contains p) = [] := by
        rw [List.filter_eq_nil_iff]
        intro p hp
        simp
        exact hdone0 x hxd p hp
      rw [this]
      simp
    · intro hxc
      apply hdx
      rw [hdeg x hxS]
      have : (inSetDeps table S x).filter (fun p => !done.contains p) = [] := by
        rw [List.filter_eq_nil_iff]
        intro p hp
        simp
        exact hcur0 x hxc p hp
      rw [this]
      simp
  refine ⟨?_, ?_, hdeg2, ?_, ?_⟩
  · -- next_level is duplicate-free
    rw [List.nodup_iff_count_le_one]
    intro x
    rw [hcnt x]
    split <;> omega
  · -- fresh candidates
    intro x hx
    have hxS := hmemS x hx
    rcases (hmem x).mp hx with ⟨h1, _⟩
    have := hpos_fresh x hxS (by omega)
    exact ⟨hxS, this.1, this.2⟩
  · -- prerequisites of next_level members are all processed
    intro s hs p hp
    have hsS := hmemS s hs
    rcases (hmem s).mp hs with ⟨h1, h2⟩
    have hz : st.1 s = 0 := by
      have hge : (0 : Int) ≤ st.1 s := by
        rw [hdeg2 s hsS]
        positivity
      have hle : st.1 s ≤ 0 := by
        rw [hdeg1 s]
        omega
      omega
    rw [hdeg2 s hsS] at hz
    have hnil : (inSetDeps table S s).filter
        (fun p => !(done.contains p || cur.contains p)) = [] := by
      have := hz
      rw [Int.natCast_eq_zero, List.length_eq_zero] at this
      exact this
    rw [List.filter_eq_nil_iff] at hnil
    have hpc := hnil p hp
    simp at hpc
    by_cases hpd : p ∈ done
    · exact Or.inl hpd
    · exact Or.inr (hpc hpd)
  · -- unprocessed candidates outside next_level keep an unprocessed prerequisite
    intro s hsS hsd hsc hsn
    by_cases hd0 : deg s = 0
    · exfalso
      rw [hdeg s hsS, Nat.cast_eq_zero, List.length_eq_zero, List.filter_eq_nil_iff] at hd0
      rcases hnz s hsS hsd hsc with ⟨p, hp, hpd⟩
      have := hd0 p hp
      simp only [Bool.not_eq_true', contains_false_iff] at this
      exact this.elim hpd
    · have hge : (0 : Int) ≤ deg s := by
        rw [hdeg s hsS]
        exact Int.natCast_nonneg _
      have h1 : 1 ≤ deg s := by omega
      have h2 : ¬(deg s ≤ (events.count s : Int)) := fun hle => hsn ((hmem s).mpr ⟨h1, hle⟩)
      have hpos : 0 < ((inSetDeps table S s).filter
          (fun p => !(done.contains p || cur.contains p))).length := by
        have ha := hdeg1 s
        rw [hdeg2 s hsS] at ha
        omega
      rcases List.exists_mem_of_ne_nil _ (List.length_pos.mp hpos) with ⟨p, hp⟩
      rcases List.mem_filter.mp hp with ⟨hpD, hpb⟩
      simp only [Bool.not_eq_true', Bool.or_eq_false_iff, contains_false_iff] at hpb
      exact ⟨p, hpD, hpb.1, hpb.2⟩

/-! ## Full correctness of the Kahn loop -/

theorem mem_flatten_getD {L : List (List String)} {x : String} :
    x ∈ L.flatten ↔ ∃ i, x ∈ L.getD i [] := by
  constructor
  · intro h
    rcases List.mem_flatten.mp h with ⟨l, hl, hx⟩
    rcases List.mem_iff_getElem.mp hl with ⟨i, hi, hEq⟩
    refine ⟨i, ?_⟩
    rw [List.getD_eq_getElem _ _ hi, hEq]
    exact hx
  · rintro ⟨i, hx⟩
    by_cases hi : i < L.length
    · refine List.mem_flatten.mpr ⟨L.getD i [], ?_, hx⟩
      rw [List.getD_eq_getElem _ _ hi]
      exact List.getElem_mem hi
    · rw [List.getD_eq_default _ _ (by omega)] at hx
      exact absurd hx (List.not_mem_nil x)

/-- One unfolding of the `while` loop when `current_level` is nonempty. -/
theorem kahnLoop_cons (graph : String → List String) (fuel : Nat) (deg : String → Int)
    (cur : List String) (hcur : cur ≠ []) :
    kahnLoop graph (fuel + 1) deg cur =
      (pySorted cur ::
        (kahnLoop graph fuel (cur.foldl (kahnProcess graph) (deg, [])).1
          (cur.foldl (kahnProcess graph) (deg, [])).2).1,
       (kahnLoop graph fuel (cur.foldl (kahnProcess graph) (deg, [])).1
          (cur.foldl (kahnProcess graph) (deg, [])).2).2) := by
  have h : cur.isEmpty = false := List.isEmpty_eq_false.mpr hcur
  simp [kahnLoop, h]

/-- The guarantees of the `while` loop of `topological_sort`, relative to the
list `done` of services already placed in earlier (virtual) iterations:
the appended levels `L` are duplicate-free fresh candidates containing all of
`current_level`, every placed service has each in-set prerequisite either in
`done` or in a strictly earlier level, every never-placed unprocessed
candidate keeps a never-placed unprocessed prerequisite, and the final
`in_degree` counts the in-set prerequisites that were never placed. -/
structure KahnLoopSpec (table : String → List String) (S done cur : List String)
    (L : List (List String)) (degF : String → Int) : Prop where
  nodup : L.flatten.Nodup
  mem_S : ∀ x ∈ L.flatten, x ∈ S
  not_done : ∀ x ∈ L.flatten, x ∉ done
  cur_sub : ∀ x ∈ cur, x ∈ L.flatten
  levels_closed : ∀ i x, x ∈ L.getD i [] → ∀ p ∈ inSetDeps table S x,
    p ∈ done ∨ ∃ j < i, p ∈ L.getD j []
  blocked : ∀ x ∈ S, x ∉ done → x ∉ L.flatten →
    ∃ p ∈ inSetDeps table S x, p ∉ done ∧ p ∉ L.flatten
  degF_eq : ∀ x ∈ S, degF x = ((inSetDeps table S x).filter
    (fun p => !(done.contains p || L.flatten.contains p))).length

theorem kahnLoop_spec (table : String → List String) (S : List String) (hS : S.Nodup)
    (fuel : Nat) :
    ∀ (done cur : List String) (deg : String → Int),
    done.Nodup → cur.Nodup →
    (∀ x ∈ done, x ∈ S) → (∀ x ∈ cur, x ∈ S) →
    (∀ x ∈ cur, x ∉ done) →
    (∀ s ∈ S, deg s = ((inSetDeps table S s).filter (fun p => !done.contains p)).length) →
    (∀ s ∈ cur, ∀ p ∈ inSetDeps table S s, p ∈ done) →
    (∀ s ∈ done, ∀ p ∈ inSetDeps table S s, p ∈ done) →
    (∀ s ∈ S, s ∉ done → s ∉ cur → ∃ p ∈ inSetDeps table S s, p ∉ done) →
    S.length + 1 ≤ fuel + done.length →
    KahnLoopSpec table S done cur
      (kahnLoop (buildGraph table S) fuel deg cur).1
      (kahnLoop (buildGraph table S) fuel deg cur).2 := by
  induction fuel with
  | zero =>
    intro done cur deg hdN _hcN hdS _hcS _hdisj _hdeg _hcur0 _hdone0 _hnz hfuel
    exfalso
    have := nodup_subset_length_le hdN hdS
    omega
  | succ fuel ih =>
    intro done cur deg hdN hcN hdS hcS hdisj hdeg hcur0 hdone0 hnz hfuel
    by_cases hcur : cur = []
    · subst hcur
      have hunfold : kahnLoop (buildGraph table S) (fuel + 1) deg [] = ([], deg) := by
        simp [kahnLoop]
      rw [hunfold]
      refine ⟨by simp, by simp, by simp, by simp, ?_, ?_, ?_⟩
      · intro i x hx
        simp at hx
      · intro x hxS hxd _
        rcases hnz x hxS hxd (List.not_mem_nil x) with ⟨p, hp, hpd⟩
        exact ⟨p, hp, hpd, by simp⟩
      · intro x hxS
        dsimp only
        rw [hdeg x hxS]
        congr 1
        apply congrArg
        apply List.filter_congr
        intro p _
        simp
    · rw [kahnLoop_cons _ _ _ _ hcur]
      obtain ⟨hN2, hfresh, hdeg2, hclosed2, hblocked2⟩ :=
        kahn_iteration table S hS done cur deg hcN hdisj hdeg hcur0 hdone0 hnz
      set st := cur.foldl (kahnProcess (buildGraph table S)) (deg, ([] : List String))
        with hst
      have hcur_len : 1 ≤ cur.length := by
        have := List.length_pos.mpr hcur
        omega
      -- prerequisites of the recursive call on `done ++ cur`, `next_level`
      have hdN' : (done ++ cur).Nodup := by
        rw [List.nodup_append]
        exact ⟨hdN, hcN, fun a ha ha' => hdisj a ha' ha⟩
      have hdS' : ∀ x ∈ done ++ cur, x ∈ S := by
        intro x hx
        rcases List.mem_append.mp hx with h | h
        · exact hdS x h
        · exact hcS x h
      have hspec' := ih (done ++ cur) st.2 st.1 hdN'
        hN2 hdS' (fun x hx => (hfresh x hx).1)
        (fun x hx => by
          rcases hfresh x hx with ⟨_, h1, h2⟩
          intro hmem
          rcases List.mem_append.mp hmem with h | h
          · exact h1 h
          · exact h2 h)
        (fun s hs => by
          rw [hdeg2 s hs]
          congr 1
          apply congrArg
          apply List.filter_congr
          intro p _
          cases hd : done.contains p <;> cases hc : cur.contains p <;>
            simp [List.elem_iff] at hd hc ⊢ <;> simp [hd, hc])
        (fun s hs p hp => List.mem_append.mpr (hclosed2 s hs p hp))
        (fun s hs p hp => by
          rcases List.mem_append.mp hs with h | h
          · exact List.mem_append.mpr (Or.inl (hdone0 s h p hp))
          · exact List.mem_append.mpr (Or.inl (hcur0 s h p hp)))
        (fun s hsS hsd hsn => by
          have h1 : s ∉ done := fun h => hsd (List.mem_append.mpr (Or.inl h))
          have h2 : s ∉ cur := fun h => hsd (List.mem_append.mpr (Or.inr h))
          rcases hblocked2 s hsS h1 h2 hsn with ⟨p, hp, hp1, hp2⟩
          refine ⟨p, hp, fun hmem => ?_⟩
          rcases List.mem_append.mp hmem with h | h
          · exact hp1 h
          · exact hp2 h)
        (by
          rw [List.length_append]
          omega)
      -- reassemble the spec for the level `pySorted cur` prepended to the rest
      set L' := (kahnLoop (buildGraph table S) fuel st.1 st.2).1 with hL'
      set degF := (kahnLoop (buildGraph table S) fuel st.1 st.2).2 with hdegF
      have hsort_mem : ∀ x, x ∈ pySorted cur ↔ x ∈ cur := fun x => mem_pySorted
      refine ⟨?_, ?_, ?_, ?_, ?_, ?_, ?_⟩
      · -- flatten is duplicate-free
        simp only [List.flatten_cons]
        rw [List.nodup_append]
        refine ⟨(pySorted_perm cur).nodup_iff.mpr hcN, hspec'.nodup, ?_⟩
        intro a ha ha'
        have := hspec'.not_done a ha'
        exact this (List.mem_append.mpr (Or.inr ((hsort_mem a).mp ha)))
      · intro x hx
        simp only [List.flatten_cons] at hx
        rcases List.mem_append.mp hx with h | h
        · exact hcS x ((hsort_mem x).mp h)
        · exact hspec'.mem_S x h
      · intro x hx
        simp only [List.flatten_cons] at hx
        rcases List.mem_append.mp hx with h | h
        · exact hdisj x ((hsort_mem x).mp h)
        · intro hxd
          exact hspec'.not_done x h (List.mem_append.mpr (Or.inl hxd))
      · intro x hx
        simp only [List.flatten_cons]
        exact List.mem_append.mpr (Or.inl ((hsort_mem x).mpr hx))
      · intro i x hx p hp
        match i with
        | 0 =>
          rw [List.getD_cons_zero] at hx
          exact Or.inl (hcur0 x ((hsort_mem x).mp hx) p hp)
        | i + 1 =>
          rw [List.getD_cons_succ] at hx
          rcases hspec'.levels_closed i x hx p hp with h | ⟨j, hj, hjmem⟩
          · rcases List.mem_append.mp h with h' | h'
            · exact Or.inl h'
            · exact Or.inr ⟨0, by omega, by
                rw [List.getD_cons_zero]
                exact (hsort_mem p).mpr h'⟩
          · exact Or.inr ⟨j + 1, by omega, by rwa [List.getD_cons_succ]⟩
      · intro x hxS hxd hxL
        simp only [List.flatten_cons] at hxL
        have hxc : x ∉ cur := fun h =>
          hxL (List.mem_append.mpr (Or.inl ((hsort_mem x).mpr h)))
        have hxL' : x ∉ L'.flatten := fun h => hxL (List.mem_append.mpr (Or.inr h))
        rcases hspec'.blocked x hxS
          (fun h => absurd (List.mem_append.mp h) (by
            rintro (h' | h')
            · exact hxd h'
            · exact hxc h')) hxL' with ⟨p, hp, hp1, hp2⟩
        refine ⟨p, hp, fun h => hp1 (List.mem_append.mpr (Or.inl h)), ?_⟩
        intro h
        simp only [List.flatten_cons] at h
        rcases List.mem_append.mp h with h' | h'
        · exact hp1 (List.mem_append.mpr (Or.inr ((hsort_mem p).mp h')))
        · exact hp2 h'
      · intro x hxS
        rw [hspec'.degF_eq x hxS]
        congr 1
        apply congrArg
        apply List.filter_congr
        intro p _
        simp only [List.flatten_cons]
        rw [Bool.eq_iff_iff]
        simp only [Bool.not_eq_true', Bool.or_eq_false_iff, contains_false_iff,
          List.mem_append, hsort_mem]
        tauto

/-! ## Acyclicity of the in-set dependency restriction -/

/-- The dependency edge relation restricted to the candidate set: `p` is a
prerequisite of `s` in the dependency table and both are candidates (the
only edges `topological_sort` builds, v2 lines 110-115). -/
def inSetEdge (table : String → List String) (S : List String) (p s : String) : Prop :=
  p ∈ table s ∧ p ∈ S ∧ s ∈ S

/-- The candidate set's dependency restriction to in-set edges is acyclic:
no service reaches itself through a nonempty chain of in-set edges. -/
def AcyclicInSet (table : String → List String) (S : List String) : Prop :=
  ∀ s, ¬ Relation.TransGen (inSetEdge table S) s s

/-- If every member of a nonempty finite set has an `r`-predecessor inside
the set, the relation has a cycle. -/
theorem exists_cycle_of_all_have_pred (r : String → String → Prop) (R : List String)
    (hne : R ≠ []) (hpred : ∀ s ∈ R, ∃ p ∈ R, r p s) :
    ∃ s, Relation.TransGen r s s := by
  have hFex : ∀ x, ∃ p, x ∈ R → (p ∈ R ∧ r p x) := by
    intro x
    by_cases hx : x ∈ R
    · rcases hpred x hx with ⟨p, hp, hr⟩
      exact ⟨p, fun _ => ⟨hp, hr⟩⟩
    · exact ⟨x, fun h => absurd h hx⟩
  choose F hF using hFex
  obtain ⟨s0, hs0⟩ := List.exists_mem_of_ne_nil R hne
  have hiter : ∀ n, F^[n] s0 ∈ R := by
    intro n
    induction n with
    | zero => simpa using hs0
    | succ n ihn =>
      rw [Function.iterate_succ_apply']
      exact (hF _ ihn).1
  have hstep : ∀ n, r (F^[n + 1] s0) (F^[n] s0) := by
    intro n
    rw [Function.iterate_succ_apply']
    exact (hF _ (hiter n)).2
  have hchain : ∀ n k, Relation.TransGen r (F^[n + k + 1] s0) (F^[n] s0) := by
    intro n k
    induction k with
    | zero => exact Relation.TransGen.single (hstep n)
    | succ k ihk =>
      have harith : n + (k + 1) + 1 = (n + k + 1) + 1 := by omega
      rw [harith]
      exact Relation.TransGen.head (hstep (n + k + 1)) ihk
  have hmaps : ∀ n ∈ Finset.range (R.length + 1), F^[n] s0 ∈ R.toFinset :=
    fun n _ => List.mem_toFinset.mpr (hiter n)
  have hcard : R.toFinset.card < (Finset.range (R.length + 1)).card := by
    rw [Finset.card_range]
    have := List.toFinset_card_le R
    omega
  obtain ⟨i, _, j, _, hij, heq⟩ :=
    Finset.exists_ne_map_eq_of_card_lt_of_maps_to hcard hmaps
  rcases Nat.lt_or_ge i j with h | h
  · have hT : Relation.TransGen r (F^[j] s0) (F^[i] s0) := by
      have harith : j = i + (j - i - 1) + 1 := by omega
      rw [harith]
      exact hchain i (j - i - 1)
    rw [← heq] at hT
    exact ⟨_, hT⟩
  · have hji : j < i := by omega
    have hT : Relation.TransGen r (F^[i] s0) (F^[j] s0) := by
      have harith : i = j + (i - j - 1) + 1 := by omega
      rw [harith]
      exact hchain j (i - j - 1)
    rw [heq] at hT
    exact ⟨_, hT⟩

/-- A rank function that strictly increases along every in-set edge
witnesses acyclicity (used to discharge acyclicity for concrete inputs). -/
theorem acyclic_of_rank (table : String → List String) (S : List String)
    (rank : String → Nat)
    (h : ∀ s ∈ S, ∀ p ∈ table s, p ∈ S → rank p < rank s) :
    AcyclicInSet table S := by
  have hmono : ∀ a b, Relation.TransGen (inSetEdge table S) a b → rank a < rank b := by
    intro a b hab
    induction hab with
    | single h1 => exact h _ h1.2.2 _ h1.1 h1.2.1
    | tail _ h1 ihab => exact Nat.lt_trans ihab (h _ h1.2.2 _ h1.1 h1.2.1)
  intro s hs
  exact absurd (hmono s s hs) (lt_irrefl _)

/-- Membership in the in-set prerequisite list, unfolded. -/
theorem mem_inSetDeps {table : String → List String} {S : List String} {s p : String} :
    p ∈ inSetDeps table S s ↔ p ∈ table s ∧ p ∈ S := by
  rw [inSetDeps, List.mem_filter, contains_true_iff]

/-! ## `topological_sort` top-level analysis -/

/-- The initial in-degree of a candidate is its in-set prerequisite count. -/
theorem initInDegree_eq (table : String → List String) (S : List String) (hS : S.Nodup)
    (s : String) (hs : s ∈ S) :
    initInDegree table S s = ((inSetDeps table S s).length : Int) := by
  rw [initInDegree, List.count_eq_one_of_mem hS hs]
  simp [inSetDeps]

/-- The function `topological_sortWith`, unfolded (the `let`s are definitional). -/
theorem topological_sortWith_eq (table : String → List String) (S : List String) :
    topological_sortWith table S =
      if (S.filter (fun s => initInDegree table S s == 0)).isEmpty then
        S.map (fun s => [s])
      else
        if ((kahnLoop (buildGraph table S) (S.length + 1) (initInDegree table S)
            (S.filter (fun s => initInDegree table S s == 0))).1.map List.length).sum
            ≠ S.length then
          (kahnLoop (buildGraph table S) (S.length + 1) (initInDegree table S)
            (S.filter (fun s => initInDegree table S s == 0))).1 ++
          [pySorted (S.filter (fun s =>
            0 < (kahnLoop (buildGraph table S) (S.length + 1) (initInDegree table S)
              (S.filter (fun s => initInDegree table S s == 0))).2 s))]
        else
          (kahnLoop (buildGraph table S) (S.length + 1) (initInDegree table S)
            (S.filter (fun s => initInDegree table S s == 0))).1 := rfl

/-- The loop guarantees, instantiated at the initial state of
`topological_sort` (no service processed yet). -/
theorem topo_main_spec (table : String → List String) (S : List String) (hS : S.Nodup) :
    KahnLoopSpec table S [] (S.filter (fun s => initInDegree table S s == 0))
      (kahnLoop (buildGraph table S) (S.length + 1) (initInDegree table S)
        (S.filter (fun s => initInDegree table S s == 0))).1
      (kahnLoop (buildGraph table S) (S.length + 1) (initInDegree table S)
        (S.filter (fun s => initInDegree table S s == 0))).2 := by
  apply kahnLoop_spec table S hS (S.length + 1) [] _ _ List.nodup_nil (hS.filter _)
    (by simp) (fun x hx => (List.mem_filter.mp hx).1) (by simp)
  · intro s hs
    rw [initInDegree_eq table S hS s hs]
    have hfe : (inSetDeps table S s).filter (fun p => !([] : List String).contains p) =
        inSetDeps table S s := by
      simp
    rw [hfe]
  · intro s hs p hp
    rcases List.mem_filter.mp hs with ⟨hsS, hsz⟩
    rw [beq_iff_eq, initInDegree_eq table S hS s hsS, Nat.cast_eq_zero,
      List.length_eq_zero] at hsz
    rw [hsz] at hp
    exact absurd hp (List.not_mem_nil p)
  · simp
  · intro s hs hsd hsc
    have hz : ¬(initInDegree table S s == 0) = true := by
      intro h
      exact hsc (List.mem_filter.mpr ⟨hs, h⟩)
    rw [beq_iff_eq, initInDegree_eq table S hS s hs, Nat.cast_eq_zero,
      List.length_eq_zero] at hz
    rcases List.exists_mem_of_ne_nil _ hz with ⟨p, hp⟩
    exact ⟨p, hp, List.not_mem_nil p⟩
  · simp

/-- The circular-remainder filter (`in_degree[s] > 0`, v2 line 141) selects
exactly the candidates never placed in a level. -/
theorem topo_remaining_eq (table : String → List String) (S : List String) (hS : S.Nodup) :
    S.filter (fun s =>
      0 < (kahnLoop (buildGraph table S) (S.length + 1) (initInDegree table S)
        (S.filter (fun s => initInDegree table S s == 0))).2 s) =
    S.filter (fun s =>
      !((kahnLoop (buildGraph table S) (S.length + 1) (initInDegree table S)
        (S.filter (fun s => initInDegree table S s == 0))).1.flatten.contains s)) := by
  have spec := topo_main_spec table S hS
  apply List.filter_congr
  intro s hs
  rw [Bool.eq_iff_iff, decide_eq_true_eq, Bool.not_eq_true', contains_false_iff]
  constructor
  · intro h0 hmem
    have hd := spec.degF_eq s hs
    have hnil : (inSetDeps table S s).filter (fun p =>
        !((([] : List String)).contains p ||
          (kahnLoop (buildGraph table S) (S.length + 1) (initInDegree table S)
            (S.filter (fun s => initInDegree table S s == 0))).1.flatten.contains p)) = [] := by
      rw [List.filter_eq_nil_iff]
      intro p hp
      rcases mem_flatten_getD.mp hmem with ⟨i, hi⟩
      rcases spec.levels_closed i s hi p hp with h | ⟨j, _, hj⟩
      · exact absurd h (List.not_mem_nil p)
      · have hpf := mem_flatten_getD.mpr ⟨j, hj⟩
        simp [hpf]
    rw [hnil] at hd
    simp at hd
    omega
  · intro hnm
    rcases spec.blocked s hs (List.not_mem_nil s) hnm with ⟨p, hp, _, hp2⟩
    rw [spec.degF_eq s hs]
    have hpmem : p ∈ (inSetDeps table S s).filter (fun p =>
        !((([] : List String)).contains p ||
          (kahnLoop (buildGraph table S) (S.length + 1) (initInDegree table S)
            (S.filter (fun s => initInDegree table S s == 0))).1.flatten.contains p)) :=
      List.mem_filter.mpr ⟨hp, by
        have h2 : (kahnLoop (buildGraph table S) (S.length + 1) (initInDegree table S)
            (S.filter (fun s => initInDegree table S s == 0))).1.flatten.contains p = false :=
          contains_false_iff.mpr hp2
        simp only [h2]
        rfl⟩
    have hlen : 0 < ((inSetDeps table S s).filter (fun p =>
        !((([] : List String)).contains p ||
          (kahnLoop (buildGraph table S) (S.length + 1) (initInDegree table S)
            (S.filter (fun s => initInDegree table S s == 0))).1.flatten.contains p))).length :=
      List.length_pos.mpr (fun hnil => by
        rw [hnil] at hpmem
        exact absurd hpmem (List.not_mem_nil p))
    omega

/-- Flattening the singleton-level fallback recovers the input order. -/
theorem flatten_map_singleton (S : List String) : (S.map (fun s => [s])).flatten = S := by
  induction S with
  | nil => simp
  | cons s S ih => simp [ih]

/-- A duplicate-free list plus the missing part of `S` is a permutation of
`S`. -/
theorem append_filter_not_mem_perm {A S : List String} (hA : A.Nodup) (hS : S.Nodup)
    (hsub : ∀ x ∈ A, x ∈ S) :
    (A ++ S.filter (fun s => !(A.contains s))).Perm S := by
  rw [List.perm_iff_count]
  intro a
  rw [List.count_append]
  by_cases haA : a ∈ A
  · rw [List.count_eq_one_of_mem hA haA, List.count_eq_one_of_mem hS (hsub a haA)]
    have hnot : a ∉ S.filter (fun s => !(A.contains s)) := by
      intro h
      rcases List.mem_filter.mp h with ⟨_, hb⟩
      rw [Bool.not_eq_true', contains_false_iff] at hb
      exact hb haA
    rw [List.count_eq_zero.mpr hnot]
  · rw [List.count_eq_zero.mpr haA, Nat.zero_add]
    by_cases haS : a ∈ S
    · rw [List.count_filter]
      rw [Bool.not_eq_true', contains_false_iff]
      exact haA
    · rw [List.count_eq_zero.mpr haS,
        List.count_eq_zero.mpr (fun h => haS (List.mem_filter.mp h).1)]

/-- Two duplicate-free lists, one included in the other and of the same
length, are permutations of each other. -/
theorem perm_of_nodup_subset_length {A S : List String} (hA : A.Nodup) (hS : S.Nodup)
    (hsub : ∀ x ∈ A, x ∈ S) (hlen : A.length = S.length) : A.Perm S := by
  have hsubF : A.toFinset ⊆ S.toFinset := fun x hx =>
    List.mem_toFinset.mpr (hsub x (List.mem_toFinset.mp hx))
  have hcard : S.toFinset.card ≤ A.toFinset.card := by
    rw [List.toFinset_card_of_nodup hA, List.toFinset_card_of_nodup hS, hlen]
  have hFeq : A.toFinset = S.toFinset := Finset.eq_of_subset_of_card_le hsubF hcard
  rw [List.perm_iff_count]
  intro a
  by_cases ha : a ∈ A
  · rw [List.count_eq_one_of_mem hA ha, List.count_eq_one_of_mem hS (hsub a ha)]
  · have ha' : a ∉ S := fun h =>
      ha (List.mem_toFinset.mp (hFeq ▸ List.mem_toFinset.mpr h))
    rw [List.count_eq_zero.mpr ha, List.count_eq_zero.mpr ha']

/-- Distinct levels of a flatten-duplicate-free level list are disjoint. -/
theorem not_mem_getD_of_nodup_flatten :
    ∀ {L : List (List String)}, L.flatten.Nodup →
    ∀ {i j : Nat}, i ≠ j → ∀ {x : String}, x ∈ L.getD i [] → x ∉ L.getD j [] := by
  intro L
  induction L with
  | nil =>
    intro _ i j _ x hx
    rw [List.getD_nil] at hx
    exact absurd hx (List.not_mem_nil x)
  | cons l L ihL =>
    intro h i j hij x hx hx'
    rw [List.flatten_cons, List.nodup_append] at h
    match i, j with
    | 0, 0 => exact hij rfl
    | 0, j + 1 =>
      rw [List.getD_cons_zero] at hx
      rw [List.getD_cons_succ] at hx'
      exact h.2.2 hx (mem_flatten_getD.mpr ⟨j, hx'⟩)
    | i + 1, 0 =>
      rw [List.getD_cons_succ] at hx
      rw [List.getD_cons_zero] at hx'
      exact h.2.2 hx' (mem_flatten_getD.mpr ⟨i, hx⟩)
    | i + 1, j + 1 =>
      rw [List.getD_cons_succ] at hx hx'
      exact ihL h.2.1 (fun hij' => hij (by omega)) hx hx'

/-- Under acyclicity of the in-set restriction (and a nonempty candidate
list), the no-source fallback of `topological_sort` cannot fire. -/
theorem topo_acyclic_has_source (table : String → List String) (S : List String)
    (hS : S.Nodup) (hacyc : AcyclicInSet table S) (hSne : S ≠ []) :
    ¬(S.filter (fun s => initInDegree table S s == 0)).isEmpty = true := by
  intro hempty
  rw [List.isEmpty_iff, List.filter_eq_nil_iff] at hempty
  have hpred : ∀ s ∈ S, ∃ p ∈ S, inSetEdge table S p s := by
    intro s hs
    have hz := hempty s hs
    rw [beq_iff_eq, initInDegree_eq table S hS s hs, Nat.cast_eq_zero,
      List.length_eq_zero] at hz
    rcases List.exists_mem_of_ne_nil _ hz with ⟨p, hp⟩
    rcases mem_inSetDeps.mp hp with ⟨hpt, hpS⟩
    exact ⟨p, hpS, hpt, hpS, hs⟩
  rcases exists_cycle_of_all_have_pred _ S hSne hpred with ⟨s, hcyc⟩
  exact hacyc s hcyc

/-- Under acyclicity, every candidate is placed by the Kahn loop, and
`topological_sort` returns exactly the loop's levels (no circular-remainder
level is appended). -/
theorem topo_acyclic_complete (table : String → List String) (S : List String)
    (hS : S.Nodup) (hacyc : AcyclicInSet table S) (hSne : S ≠ []) :
    (∀ s ∈ S, s ∈ (kahnLoop (buildGraph table S) (S.length + 1) (initInDegree table S)
      (S.filter (fun s => initInDegree table S s == 0))).1.flatten) ∧
    topological_sortWith table S =
      (kahnLoop (buildGraph table S) (S.length + 1) (initInDegree table S)
        (S.filter (fun s => initInDegree table S s == 0))).1 := by
  have spec := topo_main_spec table S hS
  have hne := topo_acyclic_has_source table S hS hacyc hSne
  have hcomplete : ∀ s ∈ S, s ∈ (kahnLoop (buildGraph table S) (S.length + 1)
      (initInDegree table S) (S.filter (fun s => initInDegree table S s == 0))).1.flatten := by
    by_contra hnc
    push_neg at hnc
    rcases hnc with ⟨s0, hs0S, hs0⟩
    set R := S.filter (fun s => !((kahnLoop (buildGraph table S) (S.length + 1)
      (initInDegree table S)
      (S.filter (fun s => initInDegree table S s == 0))).1.flatten.contains s)) with hR
    have hRne : R ≠ [] := by
      intro hnil
      rw [hR, List.filter_eq_nil_iff] at hnil
      have := hnil s0 hs0S
      rw [Bool.not_eq_true', Bool.not_eq_false] at this
      exact hs0 (contains_true_iff.mp this)
    have hpred : ∀ s ∈ R, ∃ p ∈ R, inSetEdge table S p s := by
      intro s hs
      rcases List.mem_filter.mp hs with ⟨hsS, hsb⟩
      rw [Bool.not_eq_true', contains_false_iff] at hsb
      rcases spec.blocked s hsS (List.not_mem_nil s) hsb with ⟨p, hp, _, hp2⟩
      rcases mem_inSetDeps.mp hp with ⟨hpt, hpS⟩
      refine ⟨p, ?_, hpt, hpS, hsS⟩
      rw [hR]
      exact List.mem_filter.mpr ⟨hpS, by
        rw [Bool.not_eq_true', contains_false_iff]
        exact hp2⟩
    rcases exists_cycle_of_all_have_pred _ R hRne hpred with ⟨s, hcyc⟩
    exact hacyc s hcyc
  refine ⟨hcomplete, ?_⟩
  have hlen : (kahnLoop (buildGraph table S) (S.length + 1) (initInDegree table S)
      (S.filter (fun s => initInDegree table S s == 0))).1.flatten.length = S.length := by
    have hperm := perm_of_nodup_subset_length spec.nodup hS spec.mem_S ?_
    · exact hperm.length_eq
    · have h1 := nodup_subset_length_le spec.nodup spec.mem_S
      have h2 := nodup_subset_length_le hS hcomplete
      omega
  rw [topological_sortWith_eq, if_neg hne]
  rw [if_neg]
  rw [← List.length_flatten]
  omega

/-! ## Claims about `topological_sort` -/

/-- Claim C1: for every candidate set (duplicate-free list of service names)
whose dependency restriction to in-set edges is acyclic, the ExecutionPlan
returned by `topological_sort` assigns each service a level index strictly
greater than the level index of every prerequisite of that service that is
also in the set. -/
theorem topo_level_gt_prereq (table : String → List String) (S : List String)
    (hS : S.Nodup) (hacyc : AcyclicInSet table S) :
    ∀ s ∈ S, ∃ i, s ∈ (topological_sortWith table S).getD i [] ∧
      ∀ p ∈ table s, p ∈ S →
        ∃ j, j < i ∧ p ∈ (topological_sortWith table S).getD j [] := by
  intro s hsS
  by_cases hSne : S = []
  · subst hSne
    exact absurd hsS (List.not_mem_nil s)
  · obtain ⟨hcomp, heq⟩ := topo_acyclic_complete table S hS hacyc hSne
    have spec := topo_main_spec table S hS
    rw [heq]
    rcases mem_flatten_getD.mp (hcomp s hsS) with ⟨i, hi⟩
    refine ⟨i, hi, ?_⟩
    intro p hpt hpS
    rcases spec.levels_closed i s hi p (mem_inSetDeps.mpr ⟨hpt, hpS⟩) with h | ⟨j, hj, hjm⟩
    · exact absurd h (List.not_mem_nil p)
    · exact ⟨j, hj, hjm⟩

theorem topo_level_gt_prereq_witness :
    (["compute", "identity", "network"] : List String).Nodup ∧
    AcyclicInSet SERVICE_DEPENDENCIES ["compute", "identity", "network"] ∧
    (∃ i, "compute" ∈ (topological_sortWith SERVICE_DEPENDENCIES
        ["compute", "identity", "network"]).getD i [] ∧
      ∀ p ∈ SERVICE_DEPENDENCIES "compute", p ∈ (["compute", "identity", "network"] : List String) →
        ∃ j, j < i ∧ p ∈ (topological_sortWith SERVICE_DEPENDENCIES
          ["compute", "identity", "network"]).getD j []) := by
  have hacyc : AcyclicInSet SERVICE_DEPENDENCIES ["compute", "identity", "network"] :=
    acyclic_of_rank SERVICE_DEPENDENCIES ["compute", "identity", "network"]
      (fun s => if s = "identity" then 0 else if s = "network" then 1 else 2) (by decide)
  exact ⟨by decide, hacyc,
    topo_level_gt_prereq SERVICE_DEPENDENCIES ["compute", "identity", "network"]
      (by decide) hacyc "compute" (by decide)⟩

/-- Claim C5, counterexample: for the cyclic candidate set `["a", "b", "c"]`
over the table `a ↦ [b], b ↦ [a]`, the plan is `[["c"], ["a", "b"]]` and its
level of index 1 contains the service `a` together with `a`'s in-set
prerequisite `b` — so a level can contain a service and its prerequisite,
contradicting the claim as stated. -/
theorem same_level_dependency_counterexample :
    topological_sortWith cycTable ["a", "b", "c"] = [["c"], ["a", "b"]] ∧
    "a" ∈ (topological_sortWith cycTable ["a", "b", "c"]).getD 1 [] ∧
    "b" ∈ cycTable "a" ∧ "b" ∈ (["a", "b", "c"] : List String) ∧
    "b" ∈ (topological_sortWith cycTable ["a", "b", "c"]).getD 1 [] := by decide

/-- Claim C5, amended: for every duplicate-free candidate set whose in-set
dependency restriction is acyclic (the degraded cycle-fallback cases being
excluded), no service in a level of the plan returned by `topological_sort`
has an in-set prerequisite in the same level. -/
theorem no_same_level_dependency_of_acyclic (table : String → List String)
    (S : List String) (hS : S.Nodup) (hacyc : AcyclicInSet table S) :
    ∀ i, ∀ s ∈ (topological_sortWith table S).getD i [], ∀ p ∈ table s, p ∈ S →
      p ∉ (topological_sortWith table S).getD i [] := by
  intro i s hsi p hpt hpS hpi
  by_cases hSne : S = []
  · subst hSne
    rw [show topological_sortWith table ([] : List String) = [] from rfl,
      List.getD_nil] at hsi
    exact absurd hsi (List.not_mem_nil s)
  · obtain ⟨_, heq⟩ := topo_acyclic_complete table S hS hacyc hSne
    have spec := topo_main_spec table S hS
    rw [heq] at hsi hpi
    rcases spec.levels_closed i s hsi p (mem_inSetDeps.mpr ⟨hpt, hpS⟩) with h | ⟨j, hj, hjm⟩
    · exact absurd h (List.not_mem_nil p)
    · exact not_mem_getD_of_nodup_flatten spec.nodup (show j ≠ i by omega) hjm hpi

theorem no_same_level_dependency_of_acyclic_witness :
    (["compute", "identity", "network"] : List String).Nodup ∧
    AcyclicInSet SERVICE_DEPENDENCIES ["compute", "identity", "network"] ∧
    ("compute" ∈ (topological_sortWith SERVICE_DEPENDENCIES
        ["compute", "identity", "network"]).getD 2 [] ∧
     "network" ∈ SERVICE_DEPENDENCIES "compute" ∧
     "network" ∉ (topological_sortWith SERVICE_DEPENDENCIES
        ["compute", "identity", "network"]).getD 2 []) := by
  have hacyc : AcyclicInSet SERVICE_DEPENDENCIES ["compute", "identity", "network"] :=
    acyclic_of_rank SERVICE_DEPENDENCIES ["compute", "identity", "network"]
      (fun s => if s = "identity" then 0 else if s = "network" then 1 else 2) (by decide)
  exact ⟨by decide, hacyc, by decide, by decide,
    no_same_level_dependency_of_acyclic SERVICE_DEPENDENCIES
      ["compute", "identity", "network"] (by decide) hacyc 2 "compute" (by decide)
      "network" (by decide) (by decide)⟩

/-- Claim C6: if no candidate has in-degree zero under the in-set restriction,
`topological_sort` returns one singleton level per candidate in the original
input order, and the no-source warning (v2 lines 121-123) is emitted. -/
theorem no_source_fallback_singleton_levels (table : String → List String)
    (S : List String) (h : ∀ s ∈ S, initInDegree table S s ≠ 0) :
    topological_sortWith table S = S.map (fun s => [s]) ∧
    topological_sort_warns_no_source table S = true := by
  have hempty : (S.filter (fun s => initInDegree table S s == 0)).isEmpty = true := by
    rw [List.isEmpty_iff, List.filter_eq_nil_iff]
    intro s hs
    simp only [beq_iff_eq]
    exact h s hs
  exact ⟨by rw [topological_sortWith_eq, if_pos hempty], hempty⟩

theorem no_source_fallback_singleton_levels_witness :
    (∀ s ∈ (["a", "b"] : List String), initInDegree cycTable ["a", "b"] s ≠ 0) ∧
    (topological_sortWith cycTable ["a", "b"] =
      (["a", "b"] : List String).map (fun s => [s]) ∧
     topological_sort_warns_no_source cycTable ["a", "b"] = true) :=
  ⟨by decide, no_source_fallback_singleton_levels cycTable ["a", "b"] (by decide)⟩

/-- Claim C10: for every duplicate-free list of service names, the
concatenation of the levels returned by `topological_sort` is a permutation
of the input — no candidate is dropped and none is duplicated — through the
normal path, the no-source fallback and the circular-remainder path alike. -/
theorem topo_flatten_perm (table : String → List String) (S : List String)
    (hS : S.Nodup) : ((topological_sortWith table S).flatten).Perm S := by
  rw [topological_sortWith_eq]
  by_cases hne : (S.filter (fun s => initInDegree table S s == 0)).isEmpty = true
  · rw [if_pos hne, flatten_map_singleton]
  · rw [if_neg hne]
    have spec := topo_main_spec table S hS
    by_cases hproc : ((kahnLoop (buildGraph table S) (S.length + 1) (initInDegree table S)
        (S.filter (fun s => initInDegree table S s == 0))).1.map List.length).sum ≠ S.length
    · rw [if_pos hproc, List.flatten_append, topo_remaining_eq table S hS]
      have hsing : ([pySorted (S.filter (fun s =>
          !((kahnLoop (buildGraph table S) (S.length + 1) (initInDegree table S)
            (S.filter (fun s => initInDegree table S s == 0))).1.flatten.contains s)))] :
          List (List String)).flatten =
          pySorted (S.filter (fun s =>
          !((kahnLoop (buildGraph table S) (S.length + 1) (initInDegree table S)
            (S.filter (fun s => initInDegree table S s == 0))).1.flatten.contains s))) := by
        simp
      rw [hsing]
      exact (List.Perm.append_left _ (pySorted_perm _)).trans
        (append_filter_not_mem_perm spec.nodup hS spec.mem_S)
    · rw [if_neg hproc]
      push_neg at hproc
      apply perm_of_nodup_subset_length spec.nodup hS spec.mem_S
      rw [List.length_flatten]
      exact hproc

theorem topo_flatten_perm_witness :
    (["a", "b", "c"] : List String).Nodup ∧
    ((topological_sortWith cycTable ["a", "b", "c"]).flatten).Perm ["a", "b", "c"] :=
  ⟨by decide, topo_flatten_perm cycTable ["a", "b", "c"] (by decide)⟩

/-! ## Claims about per-service execution -/

/-- Claim C2, evaluation at the claimed inputs: for a single-service plan run,
exit code 0 gives Success with deltas `(0,0,0)` and exit code 1 gives a
failure with standard-error captured, as the claim states; but for exit code
2 with the standard summary line `"Plan: 3 to add, 1 to change, 0 to
destroy."` the result is Success with deltas `(0,0,0)`, not `(3,1,0)`:
`parse_plan_summary` reads `parts[i-1]`, the token before `"add,"`, which in
the provisioning tool's real summary is the word `"to"`, so `int()` raises
and every counter keeps its default 0 (the regex of the v1 script, and the
function's own docstring, show the intended extraction). -/
theorem plan_exit_code_results :
    ((execute_terraform_for_service "svc" "plan" (ProcOutcome.completed 0 "" "")
        (ProcOutcome.completed 0 "No changes." "") 7).success = true ∧
     (execute_terraform_for_service "svc" "plan" (ProcOutcome.completed 0 "" "")
        (ProcOutcome.completed 0 "No changes." "") 7).resources_created = 0 ∧
     (execute_terraform_for_service "svc" "plan" (ProcOutcome.completed 0 "" "")
        (ProcOutcome.completed 0 "No changes." "") 7).resources_changed = 0 ∧
     (execute_terraform_for_service "svc" "plan" (ProcOutcome.completed 0 "" "")
        (ProcOutcome.completed 0 "No changes." "") 7).resources_destroyed = 0) ∧
    (parse_plan_summary "Plan: 3 to add, 1 to change, 0 to destroy." =
      { add := 0, change := 0, destroy := 0 } ∧
     (execute_terraform_for_service "svc" "plan" (ProcOutcome.completed 0 "" "")
        (ProcOutcome.completed 2 "Plan: 3 to add, 1 to change, 0 to destroy." "") 7).success
        = true ∧
     (execute_terraform_for_service "svc" "plan" (ProcOutcome.completed 0 "" "")
        (ProcOutcome.completed 2 "Plan: 3 to add, 1 to change, 0 to destroy." "")
        7).resources_created = 0 ∧
     ¬((execute_terraform_for_service "svc" "plan" (ProcOutcome.completed 0 "" "")
        (ProcOutcome.completed 2 "Plan: 3 to add, 1 to change, 0 to destroy." "")
        7).resources_created = 3 ∧
       (execute_terraform_for_service "svc" "plan" (ProcOutcome.completed 0 "" "")
        (ProcOutcome.completed 2 "Plan: 3 to add, 1 to change, 0 to destroy." "")
        7).resources_changed = 1)) ∧
    ((execute_terraform_for_service "svc" "plan" (ProcOutcome.completed 0 "" "")
        (ProcOutcome.completed 1 "boom" "err") 7).success = false ∧
     (execute_terraform_for_service "svc" "plan" (ProcOutcome.completed 0 "" "")
        (ProcOutcome.completed 1 "boom" "err") 7).error =
       some "Plan failed (exit code 1): err") := by decide

/-- Claim C4, counterexample: an init-step timeout and a plan/apply-step timeout
produce *identical* result records — in particular the same fixed message
`"Terraform plan timed out after 30 minutes"` — so the result does not
identify which of the two steps exceeded its bound (the init bound is even
300 seconds, not 30 minutes). -/
theorem timeout_message_not_step_identifying :
    execute_terraform_for_service "svc" "plan" ProcOutcome.timedOut
        (ProcOutcome.completed 0 "" "") 1800 =
      execute_terraform_for_service "svc" "plan" (ProcOutcome.completed 0 "" "")
        ProcOutcome.timedOut 1800 ∧
    (execute_terraform_for_service "svc" "plan" ProcOutcome.timedOut
        (ProcOutcome.completed 0 "" "") 1800).error =
      some "Terraform plan timed out after 30 minutes" := by decide

/-- Claim C4, amended: a timeout on either the init step or the plan/apply
step yields a non-success result carrying the fixed message
`"Terraform {action} timed out after 30 minutes"`, which names the requested
action and the long bound but not which step exceeded its bound; the message
is distinct from the exit-code failure message of a `Failed` run. -/
theorem timeout_fixed_action_message (name action so se : String) (elapsed : Nat)
    (tfOut : ProcOutcome) :
    ((execute_terraform_for_service name action ProcOutcome.timedOut tfOut elapsed).success
        = false ∧
     (execute_terraform_for_service name action ProcOutcome.timedOut tfOut elapsed).error
        = some ("Terraform " ++ action ++ " timed out after 30 minutes")) ∧
    ((execute_terraform_for_service name action (ProcOutcome.completed 0 so se)
        ProcOutcome.timedOut elapsed).success = false ∧
     (execute_terraform_for_service name action (ProcOutcome.completed 0 so se)
        ProcOutcome.timedOut elapsed).error
        = some ("Terraform " ++ action ++ " timed out after 30 minutes")) ∧
    (execute_terraform_for_service "svc" "plan" (ProcOutcome.completed 0 "" "")
        (ProcOutcome.completed 1 "" "boom") 5).error ≠
      (execute_terraform_for_service "svc" "plan" (ProcOutcome.completed 0 "" "")
        ProcOutcome.timedOut 5).error :=
  ⟨⟨rfl, rfl⟩, ⟨rfl, rfl⟩, by decide⟩

/-! ## Claims about the level driver of `main` -/

/-- Claim C9: with the dry-run flag set, the per-level dispatch — and hence the
provisioning tool — is never invoked (the output does not depend on `exec`),
fail-fast never fires, and every candidate of every level receives a
synthesized Success result with zero duration, zero resource deltas and the
placeholder message. -/
theorem dry_run_synthesizes_success (action : String)
    (exec : List String → List TFResult) (plan : List (List String)) :
    run_levels action true exec plan = plan.flatten.map (dry_run_result action) ∧
    ∀ s, (dry_run_result action s).success = true ∧
      (dry_run_result action s).duration = 0 ∧
      (dry_run_result action s).resources_created = 0 ∧
      (dry_run_result action s).resources_changed = 0 ∧
      (dry_run_result action s).resources_destroyed = 0 ∧
      (dry_run_result action s).output =
        "[DRY-RUN] Simulated " ++ action ++ " for " ++ s := by
  constructor
  · have h : ∀ (p : List (List String)) (acc : List TFResult),
        run_levels_from action true exec acc p =
          acc ++ p.flatten.map (dry_run_result action) := by
      intro p
      induction p with
      | nil => intro acc; simp [run_levels_from]
      | cons level rest ih =>
        intro acc
        rw [run_levels_from]
        simp only [if_true, Bool.not_true, Bool.and_false, Bool.false_eq_true,
          if_false, ih]
        simp [List.flatten_cons]
    simpa using h plan []
  · intro s
    exact ⟨rfl, rfl, rfl, rfl, rfl, rfl⟩

/-- Python `all_results[-len(level):]` after appending exactly the level's results
is those results. -/
theorem pyLastSlice_append {α : Type} (acc res : List α) (h : res ≠ []) :
    pyLastSlice (acc ++ res) res.length = res := by
  rw [pyLastSlice, if_neg (fun h0 => h (List.length_eq_zero.mp h0)), List.length_append]
  have harith : acc.length + res.length - res.length = acc.length := by omega
  rw [harith]
  exact List.drop_left acc res

/-- The level loop in non-dry-run mode, from an all-success accumulator:
when level `k` is the first level with a failed result, the loop returns the
accumulator plus the results of levels `0..k` and stops. -/
theorem run_levels_from_fail_fast (action : String)
    (exec : List String → List TFResult) :
    ∀ (plan : List (List String)) (k : Nat) (acc : List TFResult),
    (∀ l ∈ plan, (exec l).length = l.length) →
    (∀ r ∈ acc, r.success = true) →
    k < plan.length →
    (∃ r ∈ exec (plan.getD k []), r.success = false) →
    (∀ j, j < k → ∀ r ∈ exec (plan.getD j []), r.success = true) →
    run_levels_from action false exec acc plan =
      acc ++ ((plan.take (k + 1)).map exec).flatten := by
  intro plan
  induction plan with
  | nil =>
    intro k acc _ _ hk
    exact absurd hk (by simp)
  | cons level rest ih =>
    intro k acc hlen hacc hk hfail hprev
    simp only [run_levels_from, Bool.false_eq_true, if_false, Bool.not_false,
      Bool.and_true]
    cases k with
    | zero =>
      rw [List.getD_cons_zero] at hfail
      rcases hfail with ⟨r, hr, hrf⟩
      have hlne : exec level ≠ [] := fun h0 => by
        rw [h0] at hr
        exact absurd hr (List.not_mem_nil r)
      have hlevne : level.length = (exec level).length :=
        (hlen level (List.mem_cons_self level rest)).symm
      have hslice : pyLastSlice (acc ++ exec level) level.length = exec level := by
        rw [hlevne]
        exact pyLastSlice_append acc (exec level) hlne
      rw [hslice]
      have hall : (exec level).all (fun r => r.success) = false := by
        by_contra hno
        rw [Bool.not_eq_false, List.all_eq_true] at hno
        have := hno r hr
        rw [hrf] at this
        exact Bool.false_ne_true this
      rw [hall]
      simp [List.take_succ_cons, List.flatten_cons]
    | succ k =>
      have hlsucc : ∀ r ∈ exec level, r.success = true := by
        have h0 := hprev 0 (by omega)
        rwa [List.getD_cons_zero] at h0
      have hcont : (pyLastSlice (acc ++ exec level) level.length).all
          (fun r => r.success) = true := by
        rw [List.all_eq_true]
        intro r hr
        have hsub : r ∈ acc ++ exec level := by
          rw [pyLastSlice] at hr
          split at hr
          · exact hr
          · exact List.mem_of_mem_drop hr
        rcases List.mem_append.mp hsub with h | h
        · exact hacc r h
        · exact hlsucc r h
      rw [hcont]
      simp only [Bool.not_true, Bool.false_eq_true, if_false]
      rw [ih k (acc ++ exec level)
        (fun l hl => hlen l (List.mem_cons_of_mem level hl))
        (fun r hr => by
          rcases List.mem_append.mp hr with h | h
          · exact hacc r h
          · exact hlsucc r h)
        (by simpa using hk)
        (by rwa [List.getD_cons_succ] at hfail)
        (fun j hj r hr => hprev (j + 1) (by omega) r
          (by rwa [List.getD_cons_succ]))]
      simp [List.take_succ_cons, List.flatten_cons]

/-- Claim C3: in a run with dry-run off, once the first level containing a
non-Success result is fully resolved, execution halts: the returned result
list is exactly the concatenation of the per-level results of levels `0..k`
(the failed level's results included, everything produced retained), and no
service of any later level has a result in the list — later levels are
simply absent, not marked failed. -/
theorem fail_fast_halts_after_failed_level (action : String)
    (exec : List String → List TFResult) (plan : List (List String)) (k : Nat)
    (hlen : ∀ l ∈ plan, (exec l).length = l.length)
    (hserv : ∀ l ∈ plan, ∀ r ∈ exec l, r.service ∈ l)
    (hnodup : plan.flatten.Nodup)
    (hk : k < plan.length)
    (hfail : ∃ r ∈ exec (plan.getD k []), r.success = false)
    (hprev : ∀ j, j < k → ∀ r ∈ exec (plan.getD j []), r.success = true) :
    run_levels action false exec plan = ((plan.take (k + 1)).map exec).flatten ∧
    ∀ m, k < m → ∀ s ∈ plan.getD m [],
      ∀ r ∈ run_levels action false exec plan, r.service ≠ s := by
  have heq : run_levels action false exec plan =
      ((plan.take (k + 1)).map exec).flatten := by
    have h := run_levels_from_fail_fast action exec plan k []
      hlen (by simp) hk hfail hprev
    simpa [run_levels] using h
  refine ⟨heq, ?_⟩
  intro m hm s hs r hr hrs
  rw [heq] at hr
  rcases List.mem_flatten.mp hr with ⟨res, hres, hrres⟩
  rcases List.mem_map.mp hres with ⟨l, hl, rfl⟩
  rcases List.mem_iff_getElem.mp hl with ⟨i, hi, hEq⟩
  have hilen : i < plan.length := by
    have := List.length_take (k + 1) plan
    omega
  have hitake : i ≤ k := by
    have := List.length_take (k + 1) plan
    omega
  have hgetl : plan.getD i [] = l := by
    rw [List.getD_eq_getElem _ _ hilen, ← hEq, List.getElem_take]
  have hserv_l : r.service ∈ l := by
    apply hserv l _ r hrres
    rw [← hgetl]
    rw [List.getD_eq_getElem _ _ hilen]
    exact List.getElem_mem hilen
  rw [hrs] at hserv_l
  rw [← hgetl] at hserv_l
  exact not_mem_getD_of_nodup_flatten hnodup (show i ≠ m by omega) hserv_l hs

theorem fail_fast_halts_after_failed_level_witness :
    (∀ l ∈ ([["a"], ["b"]] : List (List String)), (const_fail_exec l).length = l.length) ∧
    (∀ l ∈ ([["a"], ["b"]] : List (List String)), ∀ r ∈ const_fail_exec l, r.service ∈ l) ∧
    ([["a"], ["b"]] : List (List String)).flatten.Nodup ∧
    0 < ([["a"], ["b"]] : List (List String)).length ∧
    (∃ r ∈ const_fail_exec (([["a"], ["b"]] : List (List String)).getD 0 []),
      r.success = false) ∧
    (run_levels "plan" false const_fail_exec [["a"], ["b"]] =
      ((([["a"], ["b"]] : List (List String)).take 1).map const_fail_exec).flatten ∧
     ∀ m, 0 < m → ∀ s ∈ ([["a"], ["b"]] : List (List String)).getD m [],
       ∀ r ∈ run_levels "plan" false const_fail_exec [["a"], ["b"]], r.service ≠ s) :=
  ⟨by decide, by decide, by decide, by decide, by decide,
    fail_fast_halts_after_failed_level "plan" const_fail_exec [["a"], ["b"]] 0
      (by decide) (by decide) (by decide) (by decide) (by decide)
      (fun j hj => absurd hj (Nat.not_lt_zero j))⟩

/-! ## Claims about change detection -/

/-- Claim C7: whenever change detection encounters an error — the changed-files
file exists but cannot be read, there is no change source at all (neither
usable file lines nor a base reference: the explicit `ValueError`), or the
fallback diff itself raises — `detect_changed_services` does not propagate
the error; it returns `get_all_terraform_services`, the sorted list of every
non-hidden service directory under the working directory with at least one
`.tf` file. -/
theorem change_detect_error_falls_back (inp : ChangeDetectInput)
    (herr : (∃ e, inp.changed_files_file = some (Except.error e)) ∨
      (read_changed_files inp = Except.ok [] ∧ inp.base_ref = none) ∨
      (read_changed_files inp = Except.ok [] ∧ (∃ b, inp.base_ref = some b) ∧
        ∃ e, inp.git_diff = Except.error e)) :
    detect_changed_services inp = get_all_terraform_services inp.wd ∧
    (inp.wd.exists' = true →
      detect_changed_services inp = pySorted ((inp.wd.entries.filter (fun e =>
        e.isDir && !pyStartsWith "." e.name && !e.tfFiles.isEmpty)).map
        (fun e => e.name))) := by
  have heff : ∃ e, effective_changed_files inp = Except.error e := by
    rcases herr with ⟨e, hf⟩ | ⟨hok, hbr⟩ | ⟨hok, ⟨b, hbr⟩, ⟨e, hgd⟩⟩
    · refine ⟨e, ?_⟩
      have hrd : read_changed_files inp = Except.error e := by
        rw [read_changed_files, hf]
      rw [effective_changed_files, hrd]
      rfl
    · refine ⟨"Either changed_files_path or base_ref must be provided", ?_⟩
      rw [effective_changed_files, hok, hbr]
      rfl
    · refine ⟨e, ?_⟩
      rw [effective_changed_files, hok, hbr, ← hgd]
      rfl
  have hfall : detect_changed_services inp = get_all_terraform_services inp.wd := by
    rcases heff with ⟨e, he⟩
    have hbody : detect_changed_services_body inp = Except.error e := by
      rw [detect_changed_services_body, he]
      rfl
    rw [detect_changed_services, hbody]
  refine ⟨hfall, fun hex => ?_⟩
  rw [hfall, get_all_terraform_services, hex]
  rfl

theorem change_detect_error_falls_back_witness :
    (∃ e, sampleInpReadError.changed_files_file = some (Except.error e)) ∧
    (detect_changed_services sampleInpReadError =
        get_all_terraform_services sampleInpReadError.wd ∧
     (sampleInpReadError.wd.exists' = true →
      detect_changed_services sampleInpReadError =
        pySorted ((sampleInpReadError.wd.entries.filter (fun e =>
          e.isDir && !pyStartsWith "." e.name && !e.tfFiles.isEmpty)).map
          (fun e => e.name)))) :=
  ⟨⟨"IOError", rfl⟩,
    change_detect_error_falls_back sampleInpReadError (Or.inl ⟨"IOError", rfl⟩)⟩

/-- A step of the module-collection fold never removes members. -/
theorem mem_module_change_step (mods : List String) (fp x : String) (hx : x ∈ mods) :
    x ∈ module_change_step mods fp := by
  simp only [module_change_step]
  split
  · split
    · split
      · exact hx
      · exact List.mem_append_left _ hx
    · exact hx
  · exact hx

/-- The module-collection fold never removes members. -/
theorem mem_module_change_foldl (files : List String) :
    ∀ (mods : List String) (x : String), x ∈ mods →
      x ∈ files.foldl module_change_step mods := by
  induction files with
  | nil => intro mods x hx; exact hx
  | cons g gs ih => intro mods x hx; exact ih _ x (mem_module_change_step mods g x hx)

/-- A changed file under the shared-modules prefix puts its module name into
the set `detect_module_changes` returns. -/
theorem mem_detect_module_changes (files : List String) (fp M : String)
    (hfp : fp ∈ files) (hpre : pyStartsWith "modules/" fp = true)
    (hlen2 : 2 ≤ (pySplitSep "/" fp).length)
    (hM : (pySplitSep "/" fp).getD 1 "" = M) :
    M ∈ detect_module_changes files := by
  rw [detect_module_changes]
  have h : ∀ (files' : List String) (mods : List String), fp ∈ files' →
      M ∈ files'.foldl module_change_step mods := by
    intro files'
    induction files' with
    | nil =>
      intro mods h
      exact absurd h (List.not_mem_nil fp)
    | cons g gs ih =>
      intro mods hmem
      rcases List.mem_cons.mp hmem with h | h
      · subst h
        rw [List.foldl_cons]
        apply mem_module_change_foldl
        simp only [module_change_step]
        rw [if_pos hpre, if_pos (decide_eq_true hlen2), hM]
        split
        · exact contains_true_iff.mp (by assumption)
        · exact List.mem_append_right _ (List.mem_singleton_self M)
      · rw [List.foldl_cons]
        exact ih _ h
  exact h files [] hfp

/-- A step of the service-scan fold never removes members. -/
theorem mem_service_scan_step (mods svcs : List String) (en : DirEntry) (x : String)
    (hx : x ∈ svcs) : x ∈ service_scan_step mods svcs en := by
  simp only [service_scan_step]
  split
  · exact hx
  · split
    · split
      · exact hx
      · exact List.mem_append_left _ hx
    · exact hx

/-- The service-scan fold never removes members. -/
theorem mem_service_scan_foldl (mods : List String) (entries : List DirEntry) :
    ∀ (svcs : List String) (x : String), x ∈ svcs →
      x ∈ entries.foldl (service_scan_step mods) svcs := by
  induction entries with
  | nil => intro svcs x hx; exact hx
  | cons en ens ih =>
    intro svcs x hx
    rw [List.foldl_cons]
    exact ih _ x (mem_service_scan_step mods svcs en x hx)

/-- A non-hidden service directory one of whose readable `.tf` files
references one of the changed modules ends up in
`get_services_using_modules`. -/
theorem mem_get_services_using_modules (wd : WorkingDir) (mods : List String)
    (en : DirEntry) (hex : wd.exists' = true) (he : en ∈ wd.entries)
    (hdir : en.isDir = true) (hdot : pyStartsWith "." en.name = false)
    (hany : en.tfFiles.any (fun f => f.readable &&
      mods.any (fun m => module_ref_match m f.content)) = true) :
    en.name ∈ get_services_using_modules wd mods := by
  rw [get_services_using_modules, hex]
  simp only [Bool.not_true, Bool.false_eq_true, if_false]
  have h : ∀ (entries : List DirEntry) (svcs : List String), en ∈ entries →
      en.name ∈ entries.foldl (service_scan_step mods) svcs := by
    intro entries
    induction entries with
    | nil =>
      intro svcs h
      exact absurd h (List.not_mem_nil en)
    | cons e' es ih =>
      intro svcs hmem
      rw [List.foldl_cons]
      rcases List.mem_cons.mp hmem with h | h
      · subst h
        apply mem_service_scan_foldl
        simp only [service_scan_step]
        rw [if_neg (by rw [hdir, hdot]; simp), if_pos hany]
        split
        · exact contains_true_iff.mp (by assumption)
        · exact List.mem_append_right _ (List.mem_singleton_self en.name)
      · exact ih _ h
  exact h wd.entries [] he

/-- An unconditionally true membership in the deduplicating set-union of the
direct set and the fan-out set. -/
theorem mem_append_filter_of_mem (A B : List String) (x : String) (hx : x ∈ B) :
    x ∈ A ++ B.filter (fun s => !A.contains s) := by
  by_cases hA : x ∈ A
  · exact List.mem_append_left _ hA
  · refine List.mem_append_right _ (List.mem_filter.mpr ⟨hx, ?_⟩)
    rw [contains_false_iff.mpr hA]
    rfl

/-- Claim C8: if the effective changed-file list contains a path under the
shared-modules prefix naming module `M`, then every non-hidden service
directory one of whose readable `.tf` files contains a textual reference to
`M`'s module path is included in the ChangeSet returned by
`detect_changed_services` — even when none of that service's own files
appear in the changed-file list. -/
theorem module_fanout_includes_referencing_services (inp : ChangeDetectInput)
    (M file_path : String) (cfs : List String) (en : DirEntry)
    (hcfs : effective_changed_files inp = Except.ok cfs)
    (hfp : file_path ∈ cfs)
    (hpre : pyStartsWith "modules/" file_path = true)
    (hlen2 : 2 ≤ (pySplitSep "/" file_path).length)
    (hM : (pySplitSep "/" file_path).getD 1 "" = M)
    (hex : inp.wd.exists' = true)
    (he : en ∈ inp.wd.entries)
    (hdir : en.isDir = true)
    (hdot : pyStartsWith "." en.name = false)
    (href : ∃ f ∈ en.tfFiles, f.readable = true ∧
      strContains ("modules/" ++ M) f.content = true) :
    en.name ∈ detect_changed_services inp := by
  have hmods : M ∈ detect_module_changes cfs :=
    mem_detect_module_changes cfs file_path M hfp hpre hlen2 hM
  have hmodsne : ¬(detect_module_changes cfs).isEmpty = true := by
    intro h0
    rw [List.isEmpty_iff] at h0
    rw [h0] at hmods
    exact absurd hmods (List.not_mem_nil M)
  have hany : en.tfFiles.any (fun f => f.readable &&
      (detect_module_changes cfs).any (fun m => module_ref_match m f.content)) = true := by
    rw [List.any_eq_true]
    rcases href with ⟨f, hf, hread, hcont⟩
    refine ⟨f, hf, ?_⟩
    rw [hread, Bool.true_and, List.any_eq_true]
    refine ⟨M, hmods, ?_⟩
    rw [module_ref_match, hcont]
    rfl
  have haff : en.name ∈ get_services_using_modules inp.wd (detect_module_changes cfs) :=
    mem_get_services_using_modules inp.wd (detect_module_changes cfs) en hex he
      hdir hdot hany
  obtain ⟨out, hout, hmem⟩ : ∃ out, detect_changed_services_body inp = Except.ok out ∧
      en.name ∈ out := by
    rw [detect_changed_services_body, hcfs]
    refine ⟨_, rfl, ?_⟩
    rw [mem_pySorted, if_neg hmodsne]
    exact mem_append_filter_of_mem _ _ _ haff
  rw [detect_changed_services, hout]
  exact hmem

theorem module_fanout_includes_referencing_services_witness :
    effective_changed_files sampleInpModuleChange =
        Except.ok ["modules/net-common/main.tf"] ∧
    "modules/net-common/main.tf" ∈ (["modules/net-common/main.tf"] : List String) ∧
    pyStartsWith "modules/" "modules/net-common/main.tf" = true ∧
    2 ≤ (pySplitSep "/" "modules/net-common/main.tf").length ∧
    (pySplitSep "/" "modules/net-common/main.tf").getD 1 "" = "net-common" ∧
    sampleInpModuleChange.wd.exists' = true ∧
    sampleComputeEntry ∈
      sampleInpModuleChange.wd.entries ∧
    (∃ f ∈ sampleComputeEntry.tfFiles,
      f.readable = true ∧
      strContains ("modules/" ++ "net-common") f.content = true) ∧
    "compute" ∈ detect_changed_services sampleInpModuleChange := by
  refine ⟨rfl, by decide, by decide, by decide, by decide, by decide, by decide,
    by decide, ?_⟩
  exact module_fanout_includes_referencing_services sampleInpModuleChange
    "net-common" "modules/net-common/main.tf" ["modules/net-common/main.tf"]
    sampleComputeEntry
    rfl (by decide) (by decide) (by decide) (by decide) (by decide)
    (by decide) (by decide) (by decide) (by decide)
